import Mathlib

set_option maxRecDepth 8000

/-!
Verification development for the robot_arm repository.

The numerical core of the repository lives in
src/robot_arm/include/trajectory.hpp (a 6x6 Gaussian solver with partial
pivoting, a quintic boundary-value solver, and the PMP minimum-jerk
planner) and src/include/dynamics.hpp (a clamped kinematic state model).
All of that code is exact rational arithmetic on its inputs apart from
floating rounding, so it is embedded here over the rationals: every
C++ double becomes a value of type ℚ, and every function is translated
statement by statement.  C++ exceptions become an explicit error type.
-/

/-- Error kinds raised by the trajectory core.  The C++ code throws
std::runtime_error with distinct messages; each message is one
constructor here. -/
inductive PlanError where
  /-- solve6: bad dimensions / bad matrix row -/
  | dimension
  /-- solve6: singular system -/
  | singular
  /-- quintic_coeffs: T too small -/
  | durationTooSmall
  /-- plan_pmp_minimum_jerk: size mismatch -/
  | sizeMismatch
deriving DecidableEq, Repr

deriving instance DecidableEq for Except

/-- Pivot threshold 1e-12 used by solve6. -/
def pivEps : ℚ := 1 / 1000000000000

/-- Minimal duration threshold 1e-9 used by quintic_coeffs, and also the
floor applied to dt when the sample count is computed. -/
def durEps : ℚ := 1 / 1000000000

/-- Map over a list together with the index of each element, starting the
index count at n.  Used to express the in-place indexed loops of the C++
code functionally. -/
def mapIdxFrom {α β : Type*} (f : ℕ → α → β) : ℕ → List α → List β
  | _, [] => []
  | n, a :: l => f n a :: mapIdxFrom f (n + 1) l

/-- Entry (r, c) of a matrix stored as a list of row lists, with 0 for
out-of-range accesses (mirrors vector indexing that is always in range in
the C++ code). -/
def getE (rows : List (List ℚ)) (r c : ℕ) : ℚ := (rows.getD r []).getD c 0

/-- Partial-pivot row selection of solve6: scan rows below the active
column for the entry of largest absolute value, keeping the earliest row
on ties (the C++ loop updates only on a strict improvement). -/
def pivotRow (rows : List (List ℚ)) (col : ℕ) : ℕ :=
  (List.range 6).foldl
    (fun piv r => if col < r ∧ |getE rows piv col| < |getE rows r col| then r else piv) col

/-- Row swap std::swap(A[piv], A[col]). -/
def swapRows (rows : List (List ℚ)) (i j : ℕ) : List (List ℚ) :=
  mapIdxFrom
    (fun r row => if r = i then rows.getD j [] else if r = j then rows.getD i [] else row)
    0 rows

/-- Division of the pivot row by its diagonal entry, applied to the
columns from col onwards (the C++ loop runs for c = col..n). -/
def scaleRowFrom (col : ℕ) (d : ℚ) (row : List ℚ) : List ℚ :=
  mapIdxFrom (fun c v => if col ≤ c then v / d else v) 0 row

/-- Elimination update of one lower row: subtract f times the normalized
pivot row, applied to the columns from col onwards. -/
def elimRowFrom (col : ℕ) (f : ℚ) (prow : List ℚ) (row : List ℚ) : List ℚ :=
  mapIdxFrom (fun c v => if col ≤ c then v - f * prow.getD c 0 else v) 0 row

/-- One column step of the forward elimination of solve6: pivot search,
singularity test against 1e-12, row swap, pivot normalization, and
elimination of the rows below. -/
def elimStep (rows : List (List ℚ)) (col : ℕ) : Except PlanError (List (List ℚ)) :=
  let piv := pivotRow rows col
  if |getE rows piv col| < pivEps then .error .singular
  else
    let rs1 := swapRows rows col piv
    let prow := scaleRowFrom col (getE rs1 col col) (rs1.getD col [])
    let rs2 := mapIdxFrom (fun r row => if r = col then prow else row) 0 rs1
    .ok (mapIdxFrom
      (fun r row => if col < r then elimRowFrom col (row.getD col 0) prow row else row)
      0 rs2)

/-- The first k columns of the forward elimination. -/
def elimUpTo (rows : List (List ℚ)) : ℕ → Except PlanError (List (List ℚ))
  | 0 => .ok rows
  | k + 1 => (elimUpTo rows k).bind fun rs => elimStep rs k

/-- Back substitution of solve6 on the eliminated augmented matrix.  Row
r of the result refers to the solution entries of the rows below it, so
the recursion is fueled; fuel 6 is enough for every row. -/
def backSubF (rows : List (List ℚ)) : ℕ → ℕ → ℚ
  | 0, _ => 0
  | fuel + 1, r =>
      getE rows r 6 -
        ∑ c ∈ Finset.range 6, if r < c then getE rows r c * backSubF rows fuel c else 0

/-- Augmentation [A | b] performed by solve6 before eliminating. -/
def augmentRows (A : List (List ℚ)) (b : List ℚ) : List (List ℚ) :=
  List.zipWith (fun row v => row ++ [v]) A b

/-- Embedding of solve6 from src/robot_arm/include/trajectory.hpp: checks
the 6x6 / length-6 dimensions, augments, runs forward elimination with
partial pivoting over the six columns, and back-substitutes. -/
def solve6 (A : List (List ℚ)) (b : List ℚ) : Except PlanError (List ℚ) :=
  if A.length = 6 ∧ b.length = 6 ∧ ∀ row ∈ A, row.length = 6 then
    (elimUpTo (augmentRows A b) 6).map fun fin =>
      (List.range 6).map fun r => backSubF fin 6 r
  else .error .dimension

/-- Constraint matrix assembled by quintic_coeffs: position, velocity and
acceleration rows at time 0 followed by the same rows at time T, exactly
the assignments of the C++ code with TT2 = T*T and so on. -/
def quinticMat (T : ℚ) : List (List ℚ) :=
  [[1, 0, 0, 0, 0, 0],
   [0, 1, 0, 0, 0, 0],
   [0, 0, 2, 0, 0, 0],
   [1, T, T * T, T * T * T, T * T * T * T, T * T * T * T * T],
   [0, 1, 2 * T, 3 * (T * T), 4 * (T * T * T), 5 * (T * T * T * T)],
   [0, 0, 2, 6 * T, 12 * (T * T), 20 * (T * T * T)]]

/-- Right-hand side assembled by quintic_coeffs. -/
def quinticRhs (q0 v0 a0 q1 v1 a1 : ℚ) : List ℚ := [q0, v0, a0, q1, v1, a1]

/-- Embedding of quintic_coeffs: rejects T ≤ 1e-9, then solves the six
boundary constraints for the quintic coefficients via solve6. -/
def quintic_coeffs (q0 v0 a0 q1 v1 a1 T : ℚ) : Except PlanError (List ℚ) :=
  if T ≤ durEps then .error .durationTooSmall
  else solve6 (quinticMat T) (quinticRhs q0 v0 a0 q1 v1 a1)

/-- One sample of the PMP minimum-jerk trajectory, mirroring struct
PMPPoint of trajectory.hpp. -/
structure PMPPoint where
  t : ℚ
  q : List ℚ
  dq : List ℚ
  ddq : List ℚ
  u : List ℚ
  lambda1 : List ℚ
  lambda2 : List ℚ
  lambda3 : List ℚ
  J_acc : ℚ
deriving DecidableEq, Repr

instance : Inhabited PMPPoint := ⟨⟨0, [], [], [], [], [], [], [], 0⟩⟩

/-- Rounding half away from zero, the behavior of std::round. -/
def roundHalfAway (x : ℚ) : ℤ := if x < 0 then -⌊-x + 1 / 2⌋ else ⌊x + 1 / 2⌋

/-- Sample count N = max(2, round(T / max(dt, 1e-9))) of the planners. -/
def sampleCount (T dt : ℚ) : ℤ := max 2 (roundHalfAway (T / max dt durEps))

/-- Squared euclidean norm of a joint vector. -/
def normSq (l : List ℚ) : ℚ := (l.map fun v => v * v).sum

/-- Position polynomial value of one joint at time t, as computed in the
sampling loop of plan_pmp_minimum_jerk with tt2 = t*t and so on. -/
def evalQ (t : ℚ) (a : List ℚ) : ℚ :=
  a.getD 0 0 + a.getD 1 0 * t + a.getD 2 0 * (t * t) + a.getD 3 0 * (t * t * t) +
    a.getD 4 0 * (t * t * t * t) + a.getD 5 0 * (t * t * t * t * t)

/-- Velocity value of one joint at time t. -/
def evalDQ (t : ℚ) (a : List ℚ) : ℚ :=
  a.getD 1 0 + 2 * a.getD 2 0 * t + 3 * a.getD 3 0 * (t * t) +
    4 * a.getD 4 0 * (t * t * t) + 5 * a.getD 5 0 * (t * t * t * t)

/-- Acceleration value of one joint at time t. -/
def evalDDQ (t : ℚ) (a : List ℚ) : ℚ :=
  2 * a.getD 2 0 + 6 * a.getD 3 0 * t + 12 * a.getD 4 0 * (t * t) +
    20 * a.getD 5 0 * (t * t * t)

/-- Jerk (control) value of one joint at time t. -/
def evalU (t : ℚ) (a : List ℚ) : ℚ :=
  6 * a.getD 3 0 + 24 * a.getD 4 0 * t + 60 * a.getD 5 0 * (t * t)

/-- du/dt of one joint at time t, used for the costate lambda2. -/
def evalDU (t : ℚ) (a : List ℚ) : ℚ := 24 * a.getD 4 0 + 120 * a.getD 5 0 * t

/-- Second derivative of the jerk of one joint, used for lambda1. -/
def evalD2U (_t : ℚ) (a : List ℚ) : ℚ := 120 * a.getD 5 0

/-- Evaluation of one trajectory sample at time t from the per-joint
quintic coefficient lists, together with the cost update
J_acc + (1/2) * ||u||^2 * dt.  This is the body of the sampling loop of
plan_pmp_minimum_jerk: per joint the polynomial and its derivatives, the
costates lambda3 = -u, lambda2 = du/dt, lambda1 = -(d2u/dt2), and the
accumulated cost. -/
def mkPoint (coeffs : List (List ℚ)) (t dt Jprev : ℚ) : PMPPoint :=
  { t := t
    q := coeffs.map (evalQ t)
    dq := coeffs.map (evalDQ t)
    ddq := coeffs.map (evalDDQ t)
    u := coeffs.map (evalU t)
    lambda1 := coeffs.map fun a => -(evalD2U t a)
    lambda2 := coeffs.map (evalDU t)
    lambda3 := (coeffs.map (evalU t)).map fun v => -v
    J_acc := Jprev + 1 / 2 * normSq (coeffs.map (evalU t)) * dt }

/-- The sampling loop of plan_pmp_minimum_jerk over the list of sample
indices, threading the accumulated cost.  The time of sample k is k*dt
clamped down to T when it overshoots. -/
def planSamples (coeffs : List (List ℚ)) (T dt : ℚ) : List ℕ → ℚ → List PMPPoint
  | [], _ => []
  | k :: ks, J =>
      let t0 := (k : ℚ) * dt
      let t := if t0 > T then T else t0
      let p := mkPoint coeffs t dt J
      p :: planSamples coeffs T dt ks p.J_acc

/-- The per-joint coefficient loop of plan_pmp_minimum_jerk: one quintic
fit for every pair of start and target values, failing as soon as one fit
fails (the C++ loop lets the first exception escape). -/
def quinticAll (T : ℚ) : List (ℚ × ℚ) → Except PlanError (List (List ℚ))
  | [] => .ok []
  | sg :: rest =>
      (quintic_coeffs sg.1 0 0 sg.2 0 0 T).bind fun a =>
        (quinticAll T rest).map fun as => a :: as

/-- Embedding of plan_pmp_minimum_jerk: size check between the two
configurations, per-joint quintic fit with zero boundary velocity and
acceleration, then sampling at k = 0..N starting from zero accumulated
cost. -/
def plan_pmp_minimum_jerk (q0 q1 : List ℚ) (T dt : ℚ) :
    Except PlanError (List PMPPoint) :=
  let dof := q0.length
  if q1.length ≠ dof then .error .sizeMismatch
  else
    (quinticAll T (q0.zip q1)).map fun coeffs =>
      planSamples coeffs T dt (List.range ((sampleCount T dt).toNat + 1)) 0

/-- Horner evaluation of a polynomial given by its coefficient list,
lowest degree first. -/
def polyEval (l : List ℚ) (t : ℚ) : ℚ := l.foldr (fun a acc => a + t * acc) 0

/-- Formal derivative of a coefficient list: entry i of the result is
(i+1) times entry i+1 of the argument. -/
def derivC (l : List ℚ) : List ℚ := (mapIdxFrom (fun i a => (i : ℚ) * a) 0 l).drop 1

/-- Error kind of the arm state model.  The C++ code guards the lengths
with assert; a failed assert stops the program before any state change,
which the spec names DimensionMismatchError. -/
inductive DynError where
  | dimensionMismatch
deriving DecidableEq, Repr

/-- State of SimpleDynamics from src/include/dynamics.hpp: joint
positions, velocities, torques, and the per-joint limits fixed at
construction. -/
structure DynState where
  dof : ℕ
  q : List ℚ
  dq : List ℚ
  tau : List ℚ
  qmin : List ℚ
  qmax : List ℚ
  dqmax : List ℚ
deriving DecidableEq, Repr

/-- Position limit 3.14159 used by the SimpleDynamics constructor. -/
def qLimC : ℚ := 314159 / 100000

/-- Constructor SimpleDynamics(dof): zero state and torques, limits
-3.14159..3.14159 for positions and 4 rad/s for speeds. -/
def mkSimpleDynamics (dof : ℕ) : DynState :=
  { dof := dof
    q := List.replicate dof 0
    dq := List.replicate dof 0
    tau := List.replicate dof 0
    qmin := List.replicate dof (-qLimC)
    qmax := List.replicate dof qLimC
    dqmax := List.replicate dof 4 }

/-- std::clamp(v, lo, hi). -/
def clampQ (v lo hi : ℚ) : ℚ := if v < lo then lo else if hi < v then hi else v

/-- clampState: clamp every position into [qmin, qmax] and every velocity
into [-dqmax, dqmax]. -/
def clampState (s : DynState) : DynState :=
  { s with
    q := (List.range s.dof).map fun i =>
      clampQ (s.q.getD i 0) (s.qmin.getD i 0) (s.qmax.getD i 0)
    dq := (List.range s.dof).map fun i =>
      clampQ (s.dq.getD i 0) (-(s.dqmax.getD i 0)) (s.dqmax.getD i 0) }

/-- setState(q, dq): length guard, then store and clamp. -/
def setState (s : DynState) (q dq : List ℚ) : Except DynError DynState :=
  if q.length = s.dof ∧ dq.length = s.dof then
    .ok (clampState { s with q := q, dq := dq })
  else .error .dimensionMismatch

/-- setTorque(tau): length guard, then store. -/
def setTorque (s : DynState) (tau : List ℚ) : Except DynError DynState :=
  if tau.length = s.dof then .ok { s with tau := tau }
  else .error .dimensionMismatch

/-- step(dt): per joint, ddq = tau, integrate the velocity and clamp it,
then integrate the position with the new velocity and clamp it. -/
def dynStep (s : DynState) (dt : ℚ) : DynState :=
  let dq1 := (List.range s.dof).map fun i =>
    clampQ (s.dq.getD i 0 + dt * s.tau.getD i 0) (-(s.dqmax.getD i 0)) (s.dqmax.getD i 0)
  let q1 := (List.range s.dof).map fun i =>
    clampQ (s.q.getD i 0 + dt * dq1.getD i 0) (s.qmin.getD i 0) (s.qmax.getD i 0)
  { s with q := q1, dq := dq1 }

/-- States reachable through the public interface of SimpleDynamics:
construction followed by any sequence of successful setState, setTorque
and step calls. -/
inductive Reachable : DynState → Prop
  | init (dof : ℕ) : Reachable (mkSimpleDynamics dof)
  | set {s s' : DynState} (q dq : List ℚ) :
      Reachable s → setState s q dq = .ok s' → Reachable s'
  | torque {s s' : DynState} (tau : List ℚ) :
      Reachable s → setTorque s tau = .ok s' → Reachable s'
  | stepped {s : DynState} (dt : ℚ) : Reachable s → Reachable (dynStep s dt)

/-- Intermediate matrices of the forward elimination for the quintic
system at T = 1, used to evaluate the solver on concrete scenarios.
evR0 is the augmented system for boundary values 0 and 1. -/
def evR0 : List (List ℚ) :=
  [[1,0,0,0,0,0,0],[0,1,0,0,0,0,0],[0,0,2,0,0,0,0],[1,1,1,1,1,1,1],[0,1,2,3,4,5,0],[0,0,2,6,12,20,0]]

/-- Elimination state after column 0. -/
def evR1 : List (List ℚ) :=
  [[1,0,0,0,0,0,0],[0,1,0,0,0,0,0],[0,0,2,0,0,0,0],[0,1,1,1,1,1,1],[0,1,2,3,4,5,0],[0,0,2,6,12,20,0]]

/-- Elimination state after column 1. -/
def evR2 : List (List ℚ) :=
  [[1,0,0,0,0,0,0],[0,1,0,0,0,0,0],[0,0,2,0,0,0,0],[0,0,1,1,1,1,1],[0,0,2,3,4,5,0],[0,0,2,6,12,20,0]]

/-- Elimination state after column 2. -/
def evR3 : List (List ℚ) :=
  [[1,0,0,0,0,0,0],[0,1,0,0,0,0,0],[0,0,1,0,0,0,0],[0,0,0,1,1,1,1],[0,0,0,3,4,5,0],[0,0,0,6,12,20,0]]

/-- Elimination state after column 3 (rows 3 and 5 swapped by pivoting). -/
def evR4 : List (List ℚ) :=
  [[1,0,0,0,0,0,0],[0,1,0,0,0,0,0],[0,0,1,0,0,0,0],[0,0,0,1,2,10/3,0],[0,0,0,0,-2,-5,0],[0,0,0,0,-1,-7/3,1]]

/-- Elimination state after column 4. -/
def evR5 : List (List ℚ) :=
  [[1,0,0,0,0,0,0],[0,1,0,0,0,0,0],[0,0,1,0,0,0,0],[0,0,0,1,2,10/3,0],[0,0,0,0,1,5/2,0],[0,0,0,0,0,1/6,1]]

/-- Elimination state after column 5, the final upper unitriangular
augmented matrix. -/
def evR6 : List (List ℚ) :=
  [[1,0,0,0,0,0,0],[0,1,0,0,0,0,0],[0,0,1,0,0,0,0],[0,0,0,1,2,10/3,0],[0,0,0,0,1,5/2,0],[0,0,0,0,0,1,6]]
/-- The coefficient matrix of a list-of-rows system as a Mathlib matrix,
reading missing entries as 0. -/
def toMat (A : List (List ℚ)) : Matrix (Fin 6) (Fin 6) ℚ :=
  Matrix.of fun i j => getE A i j

/-- A length-6 list as a vector indexed by Fin 6. -/
def toVec6 (b : List ℚ) : Fin 6 → ℚ := fun i => b.getD i 0

theorem length_mapIdxFrom {α β : Type*} (f : ℕ → α → β) :
    ∀ (n : ℕ) (l : List α), (mapIdxFrom f n l).length = l.length
  | _, [] => rfl
  | n, _ :: l => by simp [mapIdxFrom, length_mapIdxFrom f (n + 1) l]

theorem getD_mapIdxFrom {α β : Type*} (f : ℕ → α → β) :
    ∀ (n : ℕ) (l : List α) (i : ℕ) (d : β) (d' : α), i < l.length →
      (mapIdxFrom f n l).getD i d = f (n + i) (l.getD i d')
  | _, [], _, _, _, h => absurd h (by simp)
  | n, a :: l, 0, d, d', _ => by simp [mapIdxFrom]
  | n, a :: l, i + 1, d, d', h => by
      have := getD_mapIdxFrom f (n + 1) l i d d' (by simpa using Nat.lt_of_succ_lt_succ h)
      simpa [mapIdxFrom, Nat.add_right_comm n 1 i, Nat.add_assoc] using this

theorem getD_mapIdxFrom_ge {α β : Type*} (f : ℕ → α → β) :
    ∀ (n : ℕ) (l : List α) (i : ℕ) (d : β), l.length ≤ i →
      (mapIdxFrom f n l).getD i d = d
  | _, [], _, _, _ => by simp [mapIdxFrom]
  | n, a :: l, 0, d, h => absurd h (by simp)
  | n, a :: l, i + 1, d, h => by
      simpa [mapIdxFrom] using
        getD_mapIdxFrom_ge f (n + 1) l i d (by simpa using Nat.le_of_succ_le_succ h)


theorem backSubF_succ (rows : List (List ℚ)) (f r : ℕ) :
    backSubF rows (f + 1) r =
      getE rows r 6 -
        ∑ c ∈ Finset.range 6, if r < c then getE rows r c * backSubF rows f c else 0 := rfl

theorem quintic_T1_01 : quintic_coeffs 0 0 0 1 0 0 1 = .ok [0, 0, 0, 10, -15, 6] := by
  have s0 : elimStep evR0 0 = .ok evR1 := by
    norm_num [elimStep, pivotRow, getE, swapRows, scaleRowFrom, elimRowFrom, mapIdxFrom, pivEps, evR0, evR1, List.range_succ, List.getD, abs]
  have s1 : elimStep evR1 1 = .ok evR2 := by
    norm_num [elimStep, pivotRow, getE, swapRows, scaleRowFrom, elimRowFrom, mapIdxFrom, pivEps, evR1, evR2, List.range_succ, List.getD, abs]
  have s2 : elimStep evR2 2 = .ok evR3 := by
    norm_num [elimStep, pivotRow, getE, swapRows, scaleRowFrom, elimRowFrom, mapIdxFrom, pivEps, evR2, evR3, List.range_succ, List.getD, abs]
  have s3 : elimStep evR3 3 = .ok evR4 := by
    norm_num [elimStep, pivotRow, getE, swapRows, scaleRowFrom, elimRowFrom, mapIdxFrom, pivEps, evR3, evR4, List.range_succ, List.getD, abs]
  have s4 : elimStep evR4 4 = .ok evR5 := by
    norm_num [elimStep, pivotRow, getE, swapRows, scaleRowFrom, elimRowFrom, mapIdxFrom, pivEps, evR4, evR5, List.range_succ, List.getD, abs]
  have s5 : elimStep evR5 5 = .ok evR6 := by
    norm_num [elimStep, pivotRow, getE, swapRows, scaleRowFrom, elimRowFrom, mapIdxFrom, pivEps, evR5, evR6, List.range_succ, List.getD, abs]
  have efin : elimUpTo evR0 6 = .ok evR6 := by
    simp [elimUpTo, s0, s1, s2, s3, s4, s5, Except.bind]
  have hm : quinticMat 1 = [[1,0,0,0,0,0],[0,1,0,0,0,0],[0,0,2,0,0,0],[1,1,1,1,1,1],[0,1,2,3,4,5],[0,0,2,6,12,20]] := by
    norm_num [quinticMat]
  have haug : augmentRows [[1,0,0,0,0,0],[0,1,0,0,0,0],[0,0,2,0,0,0],[1,1,1,1,1,1],[0,1,2,3,4,5],[0,0,2,6,12,20]] [0,0,0,1,0,0] = evR0 := by
    norm_num [augmentRows, evR0]
  have b5 : ∀ f : ℕ, backSubF [[1,0,0,0,0,0,0],[0,1,0,0,0,0,0],[0,0,1,0,0,0,0],[0,0,0,1,2,10/3,0],[0,0,0,0,1,5/2,0],[0,0,0,0,0,1,6]] (f + 1) 5 = 6 := by
    intro f
    rw [backSubF_succ]
    norm_num [Finset.sum_range_succ, getE, List.getD]
  have b4 : ∀ f : ℕ, backSubF [[1,0,0,0,0,0,0],[0,1,0,0,0,0,0],[0,0,1,0,0,0,0],[0,0,0,1,2,10/3,0],[0,0,0,0,1,5/2,0],[0,0,0,0,0,1,6]] (f + 1 + 1) 4 = -15 := by
    intro f
    rw [backSubF_succ]
    norm_num [Finset.sum_range_succ, getE, List.getD, b5]
  have b3 : ∀ f : ℕ, backSubF [[1,0,0,0,0,0,0],[0,1,0,0,0,0,0],[0,0,1,0,0,0,0],[0,0,0,1,2,10/3,0],[0,0,0,0,1,5/2,0],[0,0,0,0,0,1,6]] (f + 1 + 1 + 1) 3 = 10 := by
    intro f
    rw [backSubF_succ]
    norm_num [Finset.sum_range_succ, getE, List.getD, b5, b4]
  have b2 : ∀ f : ℕ, backSubF [[1,0,0,0,0,0,0],[0,1,0,0,0,0,0],[0,0,1,0,0,0,0],[0,0,0,1,2,10/3,0],[0,0,0,0,1,5/2,0],[0,0,0,0,0,1,6]] (f + 1 + 1 + 1 + 1) 2 = 0 := by
    intro f
    rw [backSubF_succ]
    norm_num [Finset.sum_range_succ, getE, List.getD, b5, b4, b3]
  have b1 : ∀ f : ℕ, backSubF [[1,0,0,0,0,0,0],[0,1,0,0,0,0,0],[0,0,1,0,0,0,0],[0,0,0,1,2,10/3,0],[0,0,0,0,1,5/2,0],[0,0,0,0,0,1,6]] (f + 1 + 1 + 1 + 1 + 1) 1 = 0 := by
    intro f
    rw [backSubF_succ]
    norm_num [Finset.sum_range_succ, getE, List.getD, b5, b4, b3, b2]
  have b0 : ∀ f : ℕ, backSubF [[1,0,0,0,0,0,0],[0,1,0,0,0,0,0],[0,0,1,0,0,0,0],[0,0,0,1,2,10/3,0],[0,0,0,0,1,5/2,0],[0,0,0,0,0,1,6]] (f + 1 + 1 + 1 + 1 + 1 + 1) 0 = 0 := by
    intro f
    rw [backSubF_succ]
    norm_num [Finset.sum_range_succ, getE, List.getD, b5, b4, b3, b2, b1]
  have c0 : backSubF [[1,0,0,0,0,0,0],[0,1,0,0,0,0,0],[0,0,1,0,0,0,0],[0,0,0,1,2,10/3,0],[0,0,0,0,1,5/2,0],[0,0,0,0,0,1,6]] 6 0 = 0 := by have h := b0 0; norm_num at h; exact h
  have c1 : backSubF [[1,0,0,0,0,0,0],[0,1,0,0,0,0,0],[0,0,1,0,0,0,0],[0,0,0,1,2,10/3,0],[0,0,0,0,1,5/2,0],[0,0,0,0,0,1,6]] 6 1 = 0 := by have h := b1 1; norm_num at h; exact h
  have c2 : backSubF [[1,0,0,0,0,0,0],[0,1,0,0,0,0,0],[0,0,1,0,0,0,0],[0,0,0,1,2,10/3,0],[0,0,0,0,1,5/2,0],[0,0,0,0,0,1,6]] 6 2 = 0 := by have h := b2 2; norm_num at h; exact h
  have c3 : backSubF [[1,0,0,0,0,0,0],[0,1,0,0,0,0,0],[0,0,1,0,0,0,0],[0,0,0,1,2,10/3,0],[0,0,0,0,1,5/2,0],[0,0,0,0,0,1,6]] 6 3 = 10 := by have h := b3 3; norm_num at h; exact h
  have c4 : backSubF [[1,0,0,0,0,0,0],[0,1,0,0,0,0,0],[0,0,1,0,0,0,0],[0,0,0,1,2,10/3,0],[0,0,0,0,1,5/2,0],[0,0,0,0,0,1,6]] 6 4 = -15 := by have h := b4 4; norm_num at h; exact h
  have c5 : backSubF [[1,0,0,0,0,0,0],[0,1,0,0,0,0,0],[0,0,1,0,0,0,0],[0,0,0,1,2,10/3,0],[0,0,0,0,1,5/2,0],[0,0,0,0,0,1,6]] 6 5 = 6 := by have h := b5 5; norm_num at h; exact h
  unfold quintic_coeffs
  rw [if_neg (by norm_num [durEps]), hm, quinticRhs, solve6,
    if_pos (by norm_num), haug, efin]
  simp only [evR6]
  simp only [Except.map, List.range_succ, List.range_zero, List.map_append, List.map_cons,
    List.map_nil, List.nil_append, List.cons_append, c0, c1, c2, c3, c4, c5]

/-- Well-formedness of an augmented elimination state: six rows of seven
entries each. -/
def DimsOk (rows : List (List ℚ)) : Prop :=
  rows.length = 6 ∧ ∀ row ∈ rows, row.length = 7

/-- Zeros below the diagonal in the first k columns. -/
def ZeroBelow (rows : List (List ℚ)) (k : ℕ) : Prop :=
  ∀ r, r < 6 → ∀ c, c < k → c < r → getE rows r c = 0

/-- Unit diagonal on the first k rows. -/
def UnitDiag (rows : List (List ℚ)) (k : ℕ) : Prop :=
  ∀ r, r < k → getE rows r r = 1

/-- x solves every row equation of the augmented system. -/
def SolA (rows : List (List ℚ)) (x : ℕ → ℚ) : Prop :=
  ∀ r, r < 6 → (∑ c ∈ Finset.range 6, getE rows r c * x c) = getE rows r 6

/-- Transposition of two indices, describing the effect of a row swap. -/
def swapIdx (i j r : ℕ) : ℕ := if r = i then j else if r = j then i else r

theorem getE_swapRows (rows : List (List ℚ)) (i j r c : ℕ)
    (hi : i < rows.length) (hj : j < rows.length) :
    getE (swapRows rows i j) r c = getE rows (swapIdx i j r) c := by
  unfold swapRows getE swapIdx
  rcases lt_or_le r rows.length with hr | hr
  · rw [show (mapIdxFrom (fun r row => if r = i then rows.getD j []
        else if r = j then rows.getD i [] else row) 0 rows).getD r [] =
        (if (0 + r) = i then rows.getD j [] else if (0 + r) = j then rows.getD i [] else rows.getD r []) from
      getD_mapIdxFrom _ 0 rows r [] [] hr]
    simp only [Nat.zero_add]
    split_ifs <;> rfl
  · have h1 : (mapIdxFrom (fun r row => if r = i then rows.getD j []
        else if r = j then rows.getD i [] else row) 0 rows).getD r [] = [] := by
      exact getD_mapIdxFrom_ge _ 0 rows r [] hr
    have hri : r ≠ i := by omega
    have hrj : r ≠ j := by omega
    rw [h1, if_neg hri, if_neg hrj, List.getD_eq_default _ _ hr]

theorem length_swapRows (rows : List (List ℚ)) (i j : ℕ) :
    (swapRows rows i j).length = rows.length := length_mapIdxFrom _ 0 rows

theorem getD_scaleRowFrom (col : ℕ) (d : ℚ) (row : List ℚ) (c : ℕ) (hc : c < row.length) :
    (scaleRowFrom col d row).getD c 0 =
      if col ≤ c then row.getD c 0 / d else row.getD c 0 := by
  unfold scaleRowFrom
  rw [getD_mapIdxFrom _ 0 row c 0 0 hc]
  simp

theorem length_scaleRowFrom (col : ℕ) (d : ℚ) (row : List ℚ) :
    (scaleRowFrom col d row).length = row.length := length_mapIdxFrom _ 0 row

theorem getD_elimRowFrom (col : ℕ) (f : ℚ) (prow row : List ℚ) (c : ℕ) (hc : c < row.length) :
    (elimRowFrom col f prow row).getD c 0 =
      if col ≤ c then row.getD c 0 - f * prow.getD c 0 else row.getD c 0 := by
  unfold elimRowFrom
  rw [getD_mapIdxFrom _ 0 row c 0 0 hc]
  simp

theorem length_elimRowFrom (col : ℕ) (f : ℚ) (prow row : List ℚ) :
    (elimRowFrom col f prow row).length = row.length := length_mapIdxFrom _ 0 row

theorem pivotFold_spec (rows : List (List ℚ)) (col : ℕ) :
    ∀ (l : List ℕ) (p : ℕ), col ≤ p →
      col ≤ l.foldl (fun piv r =>
          if col < r ∧ |getE rows piv col| < |getE rows r col| then r else piv) p ∧
      |getE rows p col| ≤ |getE rows (l.foldl (fun piv r =>
          if col < r ∧ |getE rows piv col| < |getE rows r col| then r else piv) p) col| ∧
      ∀ r ∈ l, col < r →
        |getE rows r col| ≤ |getE rows (l.foldl (fun piv r =>
          if col < r ∧ |getE rows piv col| < |getE rows r col| then r else piv) p) col| := by
  intro l
  induction l with
  | nil => exact fun p hp => ⟨hp, le_refl _, by simp⟩
  | cons a l ih =>
      intro p hp
      simp only [List.foldl_cons]
      by_cases hcase : col < a ∧ |getE rows p col| < |getE rows a col|
      · rw [if_pos hcase]
        obtain ⟨h1, h2, h3⟩ := ih a (Nat.le_of_lt hcase.1)
        refine ⟨h1, le_trans (le_of_lt hcase.2) h2, ?_⟩
        intro r hr hcol
        rcases List.mem_cons.mp hr with rfl | hr
        · exact h2
        · exact h3 r hr hcol
      · rw [if_neg hcase]
        obtain ⟨h1, h2, h3⟩ := ih p hp
        refine ⟨h1, h2, ?_⟩
        intro r hr hcol
        rcases List.mem_cons.mp hr with rfl | hr
        · have hnlt : ¬ |getE rows p col| < |getE rows r col| := fun hlt => hcase ⟨hcol, hlt⟩
          exact le_trans (le_of_not_lt hnlt) h2
        · exact h3 r hr hcol

theorem pivotFold_mem (rows : List (List ℚ)) (col : ℕ) :
    ∀ (l : List ℕ) (p : ℕ), l.foldl (fun piv r =>
        if col < r ∧ |getE rows piv col| < |getE rows r col| then r else piv) p ∈ p :: l := by
  intro l
  induction l with
  | nil => simp
  | cons a l ih =>
      intro p
      simp only [List.foldl_cons]
      by_cases hcase : col < a ∧ |getE rows p col| < |getE rows a col|
      · rw [if_pos hcase]
        have := ih a
        simp only [List.mem_cons] at this ⊢
        tauto
      · rw [if_neg hcase]
        have := ih p
        simp only [List.mem_cons] at this ⊢
        tauto

theorem pivotRow_ge (rows : List (List ℚ)) (col : ℕ) : col ≤ pivotRow rows col :=
  (pivotFold_spec rows col (List.range 6) col (le_refl col)).1

theorem pivotRow_lt (rows : List (List ℚ)) (col : ℕ) (hcol : col < 6) :
    pivotRow rows col < 6 := by
  have := pivotFold_mem rows col (List.range 6) col
  unfold pivotRow
  rcases List.mem_cons.mp this with h | h
  · omega
  · exact List.mem_range.mp h

theorem pivotRow_max (rows : List (List ℚ)) (col : ℕ) :
    ∀ r, col ≤ r → r < 6 →
      |getE rows r col| ≤ |getE rows (pivotRow rows col) col| := by
  intro r hcr hr6
  obtain ⟨h1, h2, h3⟩ := pivotFold_spec rows col (List.range 6) col (le_refl col)
  rcases eq_or_lt_of_le hcr with rfl | hlt
  · exact h2
  · exact h3 r (List.mem_range.mpr hr6) hlt

theorem getD_mem {α : Type*} (l : List α) (i : ℕ) (d : α) (h : i < l.length) :
    l.getD i d ∈ l := by
  rw [List.getD_eq_getElem _ _ h]
  exact List.getElem_mem h

theorem mem_mapIdxFrom {α β : Type*} (f : ℕ → α → β) (d : α) :
    ∀ (n : ℕ) (l : List α) (y : β), y ∈ mapIdxFrom f n l →
      ∃ i, i < l.length ∧ y = f (n + i) (l.getD i d)
  | _, [], _, h => absurd h (by simp [mapIdxFrom])
  | n, a :: l, y, h => by
      rcases List.mem_cons.mp h with rfl | h
      · exact ⟨0, by simp, by simp [mapIdxFrom]⟩
      · obtain ⟨i, hi, hy⟩ := mem_mapIdxFrom f d (n + 1) l y h
        exact ⟨i + 1, by simpa using Nat.succ_lt_succ hi,
          by simpa [Nat.add_right_comm n 1 i, Nat.add_assoc] using hy⟩

theorem dimsOk_swapRows {rows : List (List ℚ)} {i j : ℕ} (hdim : DimsOk rows)
    (hi : i < 6) (hj : j < 6) : DimsOk (swapRows rows i j) := by
  obtain ⟨hlen, hmem⟩ := hdim
  refine ⟨by rw [length_swapRows, hlen], ?_⟩
  intro row hrow
  obtain ⟨r, hr, hy⟩ := mem_mapIdxFrom _ [] 0 rows row hrow
  rw [hy]
  split_ifs
  · exact hmem _ (getD_mem rows j [] (by omega))
  · exact hmem _ (getD_mem rows i [] (by omega))
  · exact hmem _ (getD_mem rows r [] hr)

theorem elimStep_ok_cases {rows rs' : List (List ℚ)} {col : ℕ}
    (h : elimStep rows col = .ok rs') :
    ¬ |getE rows (pivotRow rows col) col| < pivEps ∧
      rs' = mapIdxFrom
        (fun r row => if col < r then
            elimRowFrom col (row.getD col 0)
              (scaleRowFrom col (getE (swapRows rows col (pivotRow rows col)) col col)
                ((swapRows rows col (pivotRow rows col)).getD col []))
              row
          else row)
        0
        (mapIdxFrom
          (fun r row => if r = col then
              scaleRowFrom col (getE (swapRows rows col (pivotRow rows col)) col col)
                ((swapRows rows col (pivotRow rows col)).getD col [])
            else row)
          0 (swapRows rows col (pivotRow rows col))) := by
  unfold elimStep at h
  by_cases hp : |getE rows (pivotRow rows col) col| < pivEps
  · rw [if_pos hp] at h
    cases h
  · rw [if_neg hp] at h
    exact ⟨hp, (Except.ok.inj h).symm⟩

theorem dimsOk_elimStep {rows rs' : List (List ℚ)} {col : ℕ} (hdim : DimsOk rows)
    (hcol : col < 6) (h : elimStep rows col = .ok rs') : DimsOk rs' := by
  obtain ⟨hp, rfl⟩ := elimStep_ok_cases h
  have hpl : pivotRow rows col < 6 := pivotRow_lt rows col hcol
  have hd1 : DimsOk (swapRows rows col (pivotRow rows col)) := dimsOk_swapRows hdim hcol hpl
  obtain ⟨hlen1, hmem1⟩ := hd1
  have hprowlen :
      (scaleRowFrom col (getE (swapRows rows col (pivotRow rows col)) col col)
        ((swapRows rows col (pivotRow rows col)).getD col [])).length = 7 := by
    rw [length_scaleRowFrom]
    exact hmem1 _ (getD_mem _ col [] (by omega))
  have hd2 : DimsOk (mapIdxFrom
      (fun r row => if r = col then
          scaleRowFrom col (getE (swapRows rows col (pivotRow rows col)) col col)
            ((swapRows rows col (pivotRow rows col)).getD col [])
        else row)
      0 (swapRows rows col (pivotRow rows col))) := by
    refine ⟨by rw [length_mapIdxFrom, hlen1], ?_⟩
    intro row hrow
    obtain ⟨r, hr, hy⟩ := mem_mapIdxFrom _ [] 0 _ row hrow
    rw [hy]
    split_ifs
    · exact hprowlen
    · exact hmem1 _ (getD_mem _ r [] hr)
  obtain ⟨hlen2, hmem2⟩ := hd2
  refine ⟨by rw [length_mapIdxFrom, hlen2], ?_⟩
  intro row hrow
  obtain ⟨r, hr, hy⟩ := mem_mapIdxFrom _ [] 0 _ row hrow
  rw [hy]
  split_ifs
  · rw [length_elimRowFrom]
    exact hmem2 _ (getD_mem _ r [] hr)
  · exact hmem2 _ (getD_mem _ r [] hr)

theorem getE_mapIdxFrom (f : ℕ → List ℚ → List ℚ) (rows : List (List ℚ)) (r c : ℕ)
    (hr : r < rows.length) :
    getE (mapIdxFrom f 0 rows) r c = (f r (rows.getD r [])).getD c 0 := by
  unfold getE
  rw [getD_mapIdxFrom _ 0 _ r [] [] hr]
  simp

theorem getE_elimStep {rows rs' : List (List ℚ)} {col : ℕ} (hdim : DimsOk rows)
    (hcol : col < 6) (h : elimStep rows col = .ok rs') (r c : ℕ) (hr : r < 6) (hc : c ≤ 6) :
    getE rs' r c =
      if r = col then
        (if col ≤ c then
          getE (swapRows rows col (pivotRow rows col)) r c /
            getE (swapRows rows col (pivotRow rows col)) col col
         else getE (swapRows rows col (pivotRow rows col)) r c)
      else if col < r then
        (if col ≤ c then
          getE (swapRows rows col (pivotRow rows col)) r c -
            getE (swapRows rows col (pivotRow rows col)) r col *
              (getE (swapRows rows col (pivotRow rows col)) col c /
                getE (swapRows rows col (pivotRow rows col)) col col)
         else getE (swapRows rows col (pivotRow rows col)) r c)
      else getE (swapRows rows col (pivotRow rows col)) r c := by
  obtain ⟨hp, rfl⟩ := elimStep_ok_cases h
  have hpl : pivotRow rows col < 6 := pivotRow_lt rows col hcol
  have hd1 : DimsOk (swapRows rows col (pivotRow rows col)) := dimsOk_swapRows hdim hcol hpl
  obtain ⟨hlen1, hmem1⟩ := hd1
  have hrowlen : ∀ i, i < 6 → ((swapRows rows col (pivotRow rows col)).getD i []).length = 7 :=
    fun i hi => hmem1 _ (getD_mem _ i [] (by omega))
  have hprow :
      ∀ c, c ≤ 6 →
        (scaleRowFrom col (getE (swapRows rows col (pivotRow rows col)) col col)
          ((swapRows rows col (pivotRow rows col)).getD col [])).getD c 0 =
        if col ≤ c then
          getE (swapRows rows col (pivotRow rows col)) col c /
            getE (swapRows rows col (pivotRow rows col)) col col
        else getE (swapRows rows col (pivotRow rows col)) col c := by
    intro c hc
    rw [getD_scaleRowFrom _ _ _ c (by rw [hrowlen col hcol]; omega)]
    rfl
  have hlen2 : (mapIdxFrom
      (fun r row => if r = col then
          scaleRowFrom col (getE (swapRows rows col (pivotRow rows col)) col col)
            ((swapRows rows col (pivotRow rows col)).getD col [])
        else row)
      0 (swapRows rows col (pivotRow rows col))).length = 6 := by
    rw [length_mapIdxFrom, hlen1]
  have hrs2 : ∀ i, i < 6 →
      (mapIdxFrom
        (fun r row => if r = col then
            scaleRowFrom col (getE (swapRows rows col (pivotRow rows col)) col col)
              ((swapRows rows col (pivotRow rows col)).getD col [])
          else row)
        0 (swapRows rows col (pivotRow rows col))).getD i [] =
      if i = col then
        scaleRowFrom col (getE (swapRows rows col (pivotRow rows col)) col col)
          ((swapRows rows col (pivotRow rows col)).getD col [])
      else (swapRows rows col (pivotRow rows col)).getD i [] := by
    intro i hi
    rw [getD_mapIdxFrom _ 0 _ i [] [] (by rw [hlen1]; omega)]
    simp only [Nat.zero_add]
  rw [getE_mapIdxFrom _ _ r c (by rw [length_mapIdxFrom, hlen1]; omega)]
  rw [hrs2 r hr]
  rcases Nat.lt_trichotomy r col with hrc | rfl | hrc
  · rw [if_neg (by omega : ¬ col < r), if_neg (by omega : ¬ r = col),
      if_neg (by omega : ¬ r = col), if_neg (by omega : ¬ col < r)]
    rfl
  · rw [if_neg (by omega : ¬ r < r), if_pos rfl, if_pos rfl]
    exact hprow c hc
  · rw [if_pos hrc, if_neg (by omega : ¬ r = col), if_neg (by omega : ¬ r = col), if_pos hrc]
    have hflen : ((swapRows rows col (pivotRow rows col)).getD r []).length = 7 := hrowlen r hr
    rw [getD_elimRowFrom _ _ _ _ c (by rw [hflen]; omega)]
    by_cases hcc : col ≤ c
    · rw [if_pos hcc, if_pos hcc, hprow c hc, if_pos hcc]
      rfl
    · rw [if_neg hcc, if_neg hcc]
      rfl

theorem swapIdx_invol (i j r : ℕ) : swapIdx i j (swapIdx i j r) = r := by
  unfold swapIdx
  split_ifs <;> omega

theorem swapIdx_lt {i j r : ℕ} (hi : i < 6) (hj : j < 6) (hr : r < 6) : swapIdx i j r < 6 := by
  unfold swapIdx
  split_ifs <;> omega

theorem solA_swapRows {rows : List (List ℚ)} {i j : ℕ} {x : ℕ → ℚ} (hdim : DimsOk rows)
    (hi : i < 6) (hj : j < 6) (h : SolA (swapRows rows i j) x) : SolA rows x := by
  intro r hr
  have h' := h (swapIdx i j r) (swapIdx_lt hi hj hr)
  have he : ∀ c, getE (swapRows rows i j) (swapIdx i j r) c = getE rows r c := by
    intro c
    rw [getE_swapRows rows i j _ c (hdim.1 ▸ hi) (hdim.1 ▸ hj), swapIdx_invol]
  simp only [he] at h'
  exact h'

theorem zeroBelow_swapRows {rows : List (List ℚ)} {col piv : ℕ} (hdim : DimsOk rows)
    (hcol : col < 6) (hpiv : piv < 6) (hge : col ≤ piv) (hZ : ZeroBelow rows col) :
    ZeroBelow (swapRows rows col piv) col := by
  intro r hr c hck hcr
  rw [getE_swapRows rows col piv r c (hdim.1 ▸ hcol) (hdim.1 ▸ hpiv)]
  apply hZ _ (swapIdx_lt hcol hpiv hr) _ hck
  unfold swapIdx
  split_ifs <;> omega

theorem unitDiag_swapRows {rows : List (List ℚ)} {col piv : ℕ} (hdim : DimsOk rows)
    (hcol : col < 6) (hpiv : piv < 6) (hge : col ≤ piv) (hD : UnitDiag rows col) :
    UnitDiag (swapRows rows col piv) col := by
  intro r hr
  rw [getE_swapRows rows col piv r r (hdim.1 ▸ hcol) (hdim.1 ▸ hpiv)]
  have hfix : swapIdx col piv r = r := by
    unfold swapIdx
    split_ifs <;> omega
  rw [hfix]
  exact hD r hr

theorem elimStep_inv {rows rs' : List (List ℚ)} {col : ℕ} (hcol : col < 6)
    (hdim : DimsOk rows) (hZ : ZeroBelow rows col)
    (h : elimStep rows col = .ok rs') :
    ZeroBelow rs' (col + 1) ∧ (UnitDiag rows col → UnitDiag rs' (col + 1)) ∧
      ∀ x, SolA rs' x → SolA rows x := by
  have hp := (elimStep_ok_cases h).1
  have hpl : pivotRow rows col < 6 := pivotRow_lt rows col hcol
  have hpg : col ≤ pivotRow rows col := pivotRow_ge rows col
  have hd1 : DimsOk (swapRows rows col (pivotRow rows col)) := dimsOk_swapRows hdim hcol hpl
  have hZ1 : ZeroBelow (swapRows rows col (pivotRow rows col)) col :=
    zeroBelow_swapRows hdim hcol hpl hpg hZ
  have hdval : getE (swapRows rows col (pivotRow rows col)) col col =
      getE rows (pivotRow rows col) col := by
    rw [getE_swapRows rows col (pivotRow rows col) col col (hdim.1 ▸ hcol) (hdim.1 ▸ hpl)]
    congr 1
    unfold swapIdx
    simp
  have hdne : getE (swapRows rows col (pivotRow rows col)) col col ≠ 0 := by
    rw [hdval]
    intro h0
    apply hp
    rw [h0]
    norm_num [pivEps]
  have hE := getE_elimStep hdim hcol h
  have hrowcol : ∀ c, c ≤ 6 → getE rs' col c =
      getE (swapRows rows col (pivotRow rows col)) col c /
        getE (swapRows rows col (pivotRow rows col)) col col := by
    intro c hc
    rw [hE col c hcol hc, if_pos rfl]
    by_cases hcc : col ≤ c
    · rw [if_pos hcc]
    · rw [if_neg hcc]
      rw [hZ1 col hcol c (by omega) (by omega), zero_div]
  have hrowlow : ∀ r, col < r → r < 6 → ∀ c, c ≤ 6 →
      getE rs' r c = getE (swapRows rows col (pivotRow rows col)) r c -
        getE (swapRows rows col (pivotRow rows col)) r col *
          (getE (swapRows rows col (pivotRow rows col)) col c /
            getE (swapRows rows col (pivotRow rows col)) col col) := by
    intro r hcr hr c hc
    rw [hE r c hr hc, if_neg (by omega : ¬ r = col), if_pos hcr]
    by_cases hcc : col ≤ c
    · rw [if_pos hcc]
    · rw [if_neg hcc]
      rw [hZ1 r hr c (by omega) (by omega), hZ1 col hcol c (by omega) (by omega),
        zero_div, mul_zero, sub_zero]
  have hrowup : ∀ r, r < col → ∀ c, c ≤ 6 →
      getE rs' r c = getE (swapRows rows col (pivotRow rows col)) r c := by
    intro r hrc c hc
    rw [hE r c (by omega) hc, if_neg (by omega : ¬ r = col), if_neg (by omega : ¬ col < r)]
  refine ⟨?_, ?_, ?_⟩
  · intro r hr c hck hcr
    rcases Nat.lt_or_ge c col with hc | hc
    · rcases Nat.lt_trichotomy r col with hrc | rfl | hrc
      · rw [hrowup r hrc c (by omega)]
        exact hZ1 r hr c hc hcr
      · rw [hrowcol c (by omega), hZ1 r hr c hc hcr, zero_div]
      · rw [hrowlow r hrc hr c (by omega), hZ1 r hr c hc (by omega),
          hZ1 col hcol c hc hc, zero_div, mul_zero, sub_zero]
    · have hceq : c = col := by omega
      subst hceq
      have hcr' : c < r := hcr
      rw [hrowlow r hcr' hr c (by omega), div_self hdne, mul_one, sub_self]
  · intro hD r hr
    rcases Nat.lt_or_ge r col with hrc | hrc
    · rw [hrowup r hrc r (by omega)]
      exact unitDiag_swapRows hdim hcol hpl hpg hD r hrc
    · have hreq : r = col := by omega
      subst hreq
      rw [hrowcol r (by omega), div_self hdne]
  · intro x hs
    apply solA_swapRows hdim hcol hpl
    have key_col : (∑ c ∈ Finset.range 6,
        getE (swapRows rows col (pivotRow rows col)) col c * x c) =
        getE (swapRows rows col (pivotRow rows col)) col 6 := by
      have hcoleq := hs col hcol
      rw [hrowcol 6 (le_refl 6)] at hcoleq
      have hsum : ∑ c ∈ Finset.range 6, getE rs' col c * x c =
          (∑ c ∈ Finset.range 6,
            getE (swapRows rows col (pivotRow rows col)) col c * x c) /
            getE (swapRows rows col (pivotRow rows col)) col col := by
        rw [Finset.sum_div]
        apply Finset.sum_congr rfl
        intro c hc
        rw [hrowcol c (le_of_lt (Finset.mem_range.mp hc)), div_mul_eq_mul_div]
      rw [hsum] at hcoleq
      exact (div_left_inj' hdne).mp hcoleq
    intro r hr
    rcases Nat.lt_trichotomy r col with hrc | rfl | hrc
    · have hreq := hs r hr
      have hsum : ∑ c ∈ Finset.range 6, getE rs' r c * x c =
          ∑ c ∈ Finset.range 6,
            getE (swapRows rows col (pivotRow rows col)) r c * x c := by
        apply Finset.sum_congr rfl
        intro c hc
        rw [hrowup r hrc c (le_of_lt (Finset.mem_range.mp hc))]
      rw [hsum, hrowup r hrc 6 (le_refl 6)] at hreq
      exact hreq
    · exact key_col
    · have hreq := hs r hr
      have hsum : ∑ c ∈ Finset.range 6, getE rs' r c * x c =
          (∑ c ∈ Finset.range 6,
            getE (swapRows rows col (pivotRow rows col)) r c * x c) -
          getE (swapRows rows col (pivotRow rows col)) r col /
            getE (swapRows rows col (pivotRow rows col)) col col *
            ∑ c ∈ Finset.range 6,
              getE (swapRows rows col (pivotRow rows col)) col c * x c := by
        rw [Finset.mul_sum, ← Finset.sum_sub_distrib]
        apply Finset.sum_congr rfl
        intro c hc
        rw [hrowlow r hrc hr c (le_of_lt (Finset.mem_range.mp hc))]
        ring
      rw [hsum, key_col, hrowlow r hrc hr 6 (le_refl 6)] at hreq
      have hring : getE (swapRows rows col (pivotRow rows col)) r col *
          (getE (swapRows rows col (pivotRow rows col)) col 6 /
            getE (swapRows rows col (pivotRow rows col)) col col) =
          getE (swapRows rows col (pivotRow rows col)) r col /
            getE (swapRows rows col (pivotRow rows col)) col col *
            getE (swapRows rows col (pivotRow rows col)) col 6 := by
        ring
      rw [hring] at hreq
      linarith

theorem elimUpTo_succ_ok {rows rs' : List (List ℚ)} {k : ℕ}
    (h : elimUpTo rows (k + 1) = .ok rs') :
    ∃ rsk, elimUpTo rows k = .ok rsk ∧ elimStep rsk k = .ok rs' := by
  unfold elimUpTo at h
  cases hk : elimUpTo rows k with
  | error e => rw [hk] at h; cases h
  | ok rsk => rw [hk] at h; exact ⟨rsk, rfl, h⟩

theorem elimStep_error {rows : List (List ℚ)} {col : ℕ} {e : PlanError}
    (h : elimStep rows col = .error e) :
    e = .singular ∧ |getE rows (pivotRow rows col) col| < pivEps := by
  unfold elimStep at h
  by_cases hp : |getE rows (pivotRow rows col) col| < pivEps
  · rw [if_pos hp] at h
    exact ⟨(Except.error.inj h).symm, hp⟩
  · rw [if_neg hp] at h
    cases h

theorem elimUpTo_error (rows : List (List ℚ)) :
    ∀ (n : ℕ) (e : PlanError), elimUpTo rows n = .error e →
      ∃ k, k < n ∧ ∃ rs, elimUpTo rows k = .ok rs ∧ elimStep rs k = .error e := by
  intro n
  induction n with
  | zero => intro e h; cases h
  | succ n ih =>
      intro e h
      unfold elimUpTo at h
      cases hk : elimUpTo rows n with
      | error e' =>
          rw [hk] at h
          have heq : e' = e := Except.error.inj h
          obtain ⟨k, hkn, rs, hok, herr⟩ := ih e' hk
          exact ⟨k, by omega, rs, hok, heq ▸ herr⟩
      | ok rsk =>
          rw [hk] at h
          exact ⟨n, by omega, rsk, hk, h⟩

theorem elimUpTo_inv {rows : List (List ℚ)} (hdim : DimsOk rows) :
    ∀ k, k ≤ 6 → ∀ rs', elimUpTo rows k = .ok rs' →
      DimsOk rs' ∧ ZeroBelow rs' k ∧ UnitDiag rs' k ∧ ∀ x, SolA rs' x → SolA rows x := by
  intro k
  induction k with
  | zero =>
      intro _ rs' h
      cases h
      exact ⟨hdim, fun r hr c hc => by omega, fun r hr => by omega, fun x hx => hx⟩
  | succ k ih =>
      intro hk6 rs' h
      obtain ⟨rsk, hok, hstep⟩ := elimUpTo_succ_ok h
      obtain ⟨hdimk, hZk, hDk, hSk⟩ := ih (by omega) rsk hok
      obtain ⟨hZ', hD', hS'⟩ := elimStep_inv (by omega) hdimk hZk hstep
      exact ⟨dimsOk_elimStep hdimk (by omega) hstep, hZ', hD' hDk,
        fun x hx => hSk x (hS' x hx)⟩

theorem backSubF_congr (rows : List (List ℚ)) :
    ∀ (f1 : ℕ) (f2 r : ℕ), r < 6 → 6 - r ≤ f1 → 6 - r ≤ f2 →
      backSubF rows f1 r = backSubF rows f2 r := by
  intro f1
  induction f1 with
  | zero => intro f2 r hr h1 h2; omega
  | succ f1 ih =>
      intro f2 r hr h1 h2
      cases f2 with
      | zero => omega
      | succ f2 =>
          rw [backSubF_succ, backSubF_succ]
          congr 1
          apply Finset.sum_congr rfl
          intro c hc
          have hc6 := Finset.mem_range.mp hc
          by_cases hrc : r < c
          · rw [if_pos hrc, if_pos hrc, ih f2 c hc6 (by omega) (by omega)]
          · rw [if_neg hrc, if_neg hrc]

theorem solA_backSub {rows : List (List ℚ)} (hZ : ZeroBelow rows 6) (hD : UnitDiag rows 6) :
    SolA rows (fun r => backSubF rows 6 r) := by
  intro r hr
  have hx : backSubF rows 6 r =
      getE rows r 6 -
        ∑ c ∈ Finset.range 6, if r < c then getE rows r c * backSubF rows 6 c else 0 := by
    conv_lhs => rw [show (6 : ℕ) = 5 + 1 from rfl]
    rw [backSubF_succ]
    have hsum : (∑ c ∈ Finset.range 6, if r < c then getE rows r c * backSubF rows 5 c else 0) =
        ∑ c ∈ Finset.range 6, if r < c then getE rows r c * backSubF rows 6 c else 0 := by
      apply Finset.sum_congr rfl
      intro c hc
      have hc6 := Finset.mem_range.mp hc
      by_cases hrc : r < c
      · rw [if_pos hrc, if_pos hrc, backSubF_congr rows 5 6 c hc6 (by omega) (by omega)]
      · rw [if_neg hrc, if_neg hrc]
    rw [hsum]
  have hsplit : ∀ c, c < 6 →
      getE rows r c * backSubF rows 6 c =
        (if r < c then getE rows r c * backSubF rows 6 c else 0) +
          (if c = r then backSubF rows 6 c else 0) := by
    intro c hc
    rcases Nat.lt_trichotomy r c with hrc | rfl | hrc
    · rw [if_pos hrc, if_neg (by omega), add_zero]
    · rw [if_neg (by omega), if_pos rfl, zero_add, hD r hr, one_mul]
    · rw [if_neg (by omega), if_neg (by omega), add_zero, hZ r hr c hc hrc, zero_mul]
  calc (∑ c ∈ Finset.range 6, getE rows r c * backSubF rows 6 c)
      = (∑ c ∈ Finset.range 6, ((if r < c then getE rows r c * backSubF rows 6 c else 0) +
          (if c = r then backSubF rows 6 c else 0))) := by
        apply Finset.sum_congr rfl
        intro c hc
        exact hsplit c (Finset.mem_range.mp hc)
    _ = (∑ c ∈ Finset.range 6, if r < c then getE rows r c * backSubF rows 6 c else 0) +
        (∑ c ∈ Finset.range 6, if c = r then backSubF rows 6 c else 0) :=
        Finset.sum_add_distrib
    _ = (∑ c ∈ Finset.range 6, if r < c then getE rows r c * backSubF rows 6 c else 0) +
        backSubF rows 6 r := by
        rw [Finset.sum_ite_eq' (Finset.range 6) r (fun c => backSubF rows 6 c),
          if_pos (Finset.mem_range.mpr hr)]
    _ = getE rows r 6 := by
        rw [hx]
        ring

theorem getD_map_range (f : ℕ → ℚ) (n i : ℕ) (hi : i < n) :
    ((List.range n).map f).getD i 0 = f i := by
  rw [List.getD_eq_getElem _ _ (by simp; omega)]
  simp

theorem getE_augmentRows {A : List (List ℚ)} {b : List ℚ} (hA : A.length = 6)
    (hb : b.length = 6) (hrow : ∀ row ∈ A, row.length = 6) (r c : ℕ) (hr : r < 6) :
    getE (augmentRows A b) r c = if c = 6 then b.getD r 0 else getE A r c := by
  have hzlen : (augmentRows A b).length = 6 := by
    simp [augmentRows, hA, hb]
  have hrA : r < A.length := by omega
  have hrb : r < b.length := by omega
  have hrowlen : A[r].length = 6 := hrow _ (List.getElem_mem hrA)
  have hrow' : (augmentRows A b).getD r [] = A[r] ++ [b[r]] := by
    rw [List.getD_eq_getElem _ _ (by omega)]
    simp [augmentRows]
  unfold getE
  rw [hrow']
  rcases Nat.lt_trichotomy c 6 with hc | rfl | hc
  · rw [if_neg (by omega)]
    rw [show (A[r] ++ [b[r]]).getD c 0 = A[r].getD c 0 from by
      rw [List.getD_eq_getElem _ _ (by simp [List.length_append, hrowlen]; omega),
        List.getElem_append_left (by omega), List.getD_eq_getElem _ _ (by omega)]]
    rw [List.getD_eq_getElem _ _ hrA]
  · rw [if_pos rfl]
    rw [show (A[r] ++ [b[r]]).getD 6 0 = [b[r]].getD (6 - A[r].length) 0 from by
      rw [List.getD_eq_getElem _ _ (by simp [List.length_append, hrowlen]),
        List.getElem_append_right (by omega), List.getD_eq_getElem _ _ (by simp [hrowlen])]]
    rw [hrowlen, List.getD_eq_getElem _ _ hrb]
    simp
  · rw [if_neg (by omega)]
    have hgd : (A.getD r []).length = 6 := by
      rw [List.getD_eq_getElem _ _ hrA]
      exact hrowlen
    rw [List.getD_eq_default _ _ (by simp [List.length_append, hrowlen]; omega),
      List.getD_eq_default _ _ (by rw [hgd]; omega)]

theorem dimsOk_augmentRows {A : List (List ℚ)} {b : List ℚ} (hA : A.length = 6)
    (hb : b.length = 6) (hrow : ∀ row ∈ A, row.length = 6) :
    DimsOk (augmentRows A b) := by
  refine ⟨by simp [augmentRows, hA, hb], ?_⟩
  intro row hr
  unfold augmentRows at hr
  obtain ⟨i, hi, rfl⟩ := List.getElem_of_mem hr
  have hiA : i < A.length := by
    simp [List.length_zipWith, hA, hb] at hi
    omega
  rw [List.getElem_zipWith]
  rw [List.length_append, hrow _ (List.getElem_mem hiA)]
  rfl

theorem solve6_ok_spec {A : List (List ℚ)} {b x : List ℚ}
    (hA : A.length = 6) (hb : b.length = 6) (hrow : ∀ row ∈ A, row.length = 6)
    (h : solve6 A b = .ok x) :
    x.length = 6 ∧ ∀ r, r < 6 →
      (∑ c ∈ Finset.range 6, getE A r c * x.getD c 0) = b.getD r 0 := by
  unfold solve6 at h
  rw [if_pos ⟨hA, hb, hrow⟩] at h
  cases hfin : elimUpTo (augmentRows A b) 6 with
  | error e => rw [hfin] at h; cases h
  | ok fin =>
      rw [hfin] at h
      have hx : x = (List.range 6).map fun r => backSubF fin 6 r := (Except.ok.inj h).symm
      have hdim0 : DimsOk (augmentRows A b) := dimsOk_augmentRows hA hb hrow
      obtain ⟨hdimf, hZ, hD, hpull⟩ := elimUpTo_inv hdim0 6 (le_refl 6) fin hfin
      have hsol : SolA (augmentRows A b) (fun r => backSubF fin 6 r) :=
        hpull _ (solA_backSub hZ hD)
      constructor
      · rw [hx]
        simp
      · intro r hr
        have heq := hsol r hr
        rw [getE_augmentRows hA hb hrow r 6 hr, if_pos rfl] at heq
        calc (∑ c ∈ Finset.range 6, getE A r c * x.getD c 0)
            = ∑ c ∈ Finset.range 6, getE (augmentRows A b) r c * backSubF fin 6 c := by
              apply Finset.sum_congr rfl
              intro c hc
              have hc6 := Finset.mem_range.mp hc
              rw [getE_augmentRows hA hb hrow r c hr, if_neg (by omega), hx,
                getD_map_range _ 6 c hc6]
          _ = b.getD r 0 := heq

/-- C5: for every 6x6 matrix A and length-6 vector b, when every
elimination column has a usable pivot the vector x returned by solve6
satisfies A x = b in exact arithmetic; when solve6 raises instead, the
error is SingularSystemError and at the failing step every candidate
pivot entry of the active column (hence also the largest one) has
absolute value below 1e-12.  The inputs are untouched: the embedding is
pure, mirroring the pass-by-value copies taken by the C++ function. -/
theorem solve6_spec (A : List (List ℚ)) (b : List ℚ)
    (hA : A.length = 6) (hb : b.length = 6) (hrow : ∀ row ∈ A, row.length = 6) :
    (∀ x, solve6 A b = .ok x → Matrix.mulVec (toMat A) (toVec6 x) = toVec6 b) ∧
    (∀ e, solve6 A b = .error e → e = .singular ∧
      ∃ k, k < 6 ∧ ∃ rs, elimUpTo (augmentRows A b) k = .ok rs ∧
        ∀ r, k ≤ r → r < 6 → |getE rs r k| < pivEps) := by
  constructor
  · intro x hx
    obtain ⟨hxlen, hsolves⟩ := solve6_ok_spec hA hb hrow hx
    funext i
    rw [Matrix.mulVec, Matrix.dotProduct]
    calc (∑ j : Fin 6, toMat A i j * toVec6 x j)
        = ∑ c ∈ Finset.range 6, getE A i c * x.getD c 0 := by
          rw [Finset.sum_range fun c => getE A i c * x.getD c 0]
          apply Finset.sum_congr rfl
          intro j _
          rfl
      _ = b.getD i 0 := hsolves i i.isLt
      _ = toVec6 b i := rfl
  · intro e he
    unfold solve6 at he
    rw [if_pos ⟨hA, hb, hrow⟩] at he
    cases hfin : elimUpTo (augmentRows A b) 6 with
    | ok fin => rw [hfin] at he; cases he
    | error e' =>
        rw [hfin] at he
        have heq : e' = e := Except.error.inj he
        subst heq
        obtain ⟨k, hk6, rs, hok, hstep⟩ := elimUpTo_error _ 6 e' hfin
        obtain ⟨hsing, hpiv⟩ := elimStep_error hstep
        refine ⟨hsing, k, hk6, rs, hok, ?_⟩
        intro r hkr hr6
        exact lt_of_le_of_lt (pivotRow_max rs k r hkr hr6) hpiv

theorem quintic_ok_rows {q0 v0 a0 q1 v1 a1 T : ℚ} {x : List ℚ}
    (h : quintic_coeffs q0 v0 a0 q1 v1 a1 T = .ok x) :
    x.length = 6 ∧
    x.getD 0 0 = q0 ∧
    x.getD 1 0 = v0 ∧
    2 * x.getD 2 0 = a0 ∧
    x.getD 0 0 + x.getD 1 0 * T + x.getD 2 0 * (T * T) + x.getD 3 0 * (T * T * T) +
      x.getD 4 0 * (T * T * T * T) + x.getD 5 0 * (T * T * T * T * T) = q1 ∧
    x.getD 1 0 + 2 * x.getD 2 0 * T + 3 * x.getD 3 0 * (T * T) +
      4 * x.getD 4 0 * (T * T * T) + 5 * x.getD 5 0 * (T * T * T * T) = v1 ∧
    2 * x.getD 2 0 + 6 * x.getD 3 0 * T + 12 * x.getD 4 0 * (T * T) +
      20 * x.getD 5 0 * (T * T * T) = a1 := by
  unfold quintic_coeffs at h
  by_cases hT : T ≤ durEps
  · rw [if_pos hT] at h
    cases h
  · rw [if_neg hT] at h
    have hdims : (quinticMat T).length = 6 ∧ (quinticRhs q0 v0 a0 q1 v1 a1).length = 6 ∧
        ∀ row ∈ quinticMat T, row.length = 6 := by
      refine ⟨by rfl, by rfl, ?_⟩
      intro row hrow
      simp only [quinticMat, List.mem_cons, List.not_mem_nil, or_false] at hrow
      rcases hrow with rfl | rfl | rfl | rfl | rfl | rfl <;> rfl
    obtain ⟨hxlen, hsolves⟩ := solve6_ok_spec hdims.1 hdims.2.1 hdims.2.2 h
    refine ⟨hxlen, ?_, ?_, ?_, ?_, ?_, ?_⟩
    · have h0 := hsolves 0 (by omega)
      simp only [Finset.sum_range_succ, Finset.sum_range_zero, getE, quinticMat, quinticRhs,
        List.getD] at h0
      simp at h0
      simp only [List.getD, List.get?_eq_getElem?]
      linear_combination h0
    · have h1 := hsolves 1 (by omega)
      simp only [Finset.sum_range_succ, Finset.sum_range_zero, getE, quinticMat, quinticRhs,
        List.getD] at h1
      simp at h1
      simp only [List.getD, List.get?_eq_getElem?]
      linear_combination h1
    · have h2 := hsolves 2 (by omega)
      simp only [Finset.sum_range_succ, Finset.sum_range_zero, getE, quinticMat, quinticRhs,
        List.getD] at h2
      simp at h2
      simp only [List.getD, List.get?_eq_getElem?]
      linear_combination h2
    · have h3 := hsolves 3 (by omega)
      simp only [Finset.sum_range_succ, Finset.sum_range_zero, getE, quinticMat, quinticRhs,
        List.getD] at h3
      simp at h3
      simp only [List.getD, List.get?_eq_getElem?]
      linear_combination h3
    · have h4 := hsolves 4 (by omega)
      simp only [Finset.sum_range_succ, Finset.sum_range_zero, getE, quinticMat, quinticRhs,
        List.getD] at h4
      simp at h4
      simp only [List.getD, List.get?_eq_getElem?]
      linear_combination h4
    · have h5 := hsolves 5 (by omega)
      simp only [Finset.sum_range_succ, Finset.sum_range_zero, getE, quinticMat, quinticRhs,
        List.getD] at h5
      simp at h5
      simp only [List.getD, List.get?_eq_getElem?]
      linear_combination h5

theorem quinticAll_ok_length {T : ℚ} :
    ∀ {sgs : List (ℚ × ℚ)} {cs : List (List ℚ)}, quinticAll T sgs = .ok cs →
      cs.length = sgs.length
  | [], cs, h => by
      cases h
      rfl
  | sg :: sgs, cs, h => by
      unfold quinticAll at h
      cases hq : quintic_coeffs sg.1 0 0 sg.2 0 0 T with
      | error e => rw [hq] at h; cases h
      | ok a =>
          rw [hq] at h
          cases hrest : quinticAll T sgs with
          | error e => rw [hrest] at h; cases h
          | ok as =>
              rw [hrest] at h
              have hcs : cs = a :: as := (Except.ok.inj h).symm
              subst hcs
              simp [quinticAll_ok_length hrest]

theorem quinticAll_ok_nth {T : ℚ} :
    ∀ {sgs : List (ℚ × ℚ)} {cs : List (List ℚ)}, quinticAll T sgs = .ok cs →
      ∀ i, i < sgs.length →
        quintic_coeffs (sgs.getD i (0, 0)).1 0 0 (sgs.getD i (0, 0)).2 0 0 T =
          .ok (cs.getD i [])
  | [], cs, h, i, hi => by simp at hi
  | sg :: sgs, cs, h, i, hi => by
      unfold quinticAll at h
      cases hq : quintic_coeffs sg.1 0 0 sg.2 0 0 T with
      | error e => rw [hq] at h; cases h
      | ok a =>
          rw [hq] at h
          cases hrest : quinticAll T sgs with
          | error e => rw [hrest] at h; cases h
          | ok as =>
              rw [hrest] at h
              have hcs : cs = a :: as := (Except.ok.inj h).symm
              subst hcs
              cases i with
              | zero => simpa using hq
              | succ i =>
                  have := quinticAll_ok_nth hrest i (by simpa using Nat.lt_of_succ_lt_succ hi)
                  simpa using this

theorem quinticAll_map {T : ℚ} (f : List ℚ → ℚ) (g : ℚ × ℚ → ℚ)
    (hfg : ∀ sg a, quintic_coeffs sg.1 0 0 sg.2 0 0 T = .ok a → f a = g sg) :
    ∀ {sgs : List (ℚ × ℚ)} {cs : List (List ℚ)}, quinticAll T sgs = .ok cs →
      cs.map f = sgs.map g
  | [], cs, h => by
      cases h
      rfl
  | sg :: sgs, cs, h => by
      unfold quinticAll at h
      cases hq : quintic_coeffs sg.1 0 0 sg.2 0 0 T with
      | error e => rw [hq] at h; cases h
      | ok a =>
          rw [hq] at h
          cases hrest : quinticAll T sgs with
          | error e => rw [hrest] at h; cases h
          | ok as =>
              rw [hrest] at h
              have hcs : cs = a :: as := (Except.ok.inj h).symm
              subst hcs
              simp only [List.map_cons]
              rw [hfg sg a hq, quinticAll_map f g hfg hrest]

theorem quinticAll_error {T : ℚ} :
    ∀ {sgs : List (ℚ × ℚ)} {e : PlanError}, quinticAll T sgs = .error e →
      ∃ sg ∈ sgs, quintic_coeffs sg.1 0 0 sg.2 0 0 T = .error e
  | [], e, h => by cases h
  | sg :: sgs, e, h => by
      unfold quinticAll at h
      cases hq : quintic_coeffs sg.1 0 0 sg.2 0 0 T with
      | error e' =>
          rw [hq] at h
          have : e' = e := Except.error.inj h
          exact ⟨sg, List.mem_cons_self sg sgs, this ▸ hq⟩
      | ok a =>
          rw [hq] at h
          cases hrest : quinticAll T sgs with
          | error e' =>
              rw [hrest] at h
              have heq : e' = e := Except.error.inj h
              obtain ⟨sg', hmem, hq'⟩ := quinticAll_error (heq ▸ hrest)
              exact ⟨sg', List.mem_cons_of_mem sg hmem, hq'⟩
          | ok as => rw [hrest] at h; cases h

theorem quinticAll_total {T : ℚ} :
    ∀ {sgs : List (ℚ × ℚ)},
      (∀ sg ∈ sgs, ∃ a, quintic_coeffs sg.1 0 0 sg.2 0 0 T = .ok a) →
      ∃ cs, quinticAll T sgs = .ok cs
  | [], _ => ⟨[], rfl⟩
  | sg :: sgs, h => by
      obtain ⟨a, ha⟩ := h sg (List.mem_cons_self sg sgs)
      obtain ⟨cs, hcs⟩ := quinticAll_total fun sg' hm => h sg' (List.mem_cons_of_mem sg hm)
      exact ⟨a :: cs, by unfold quinticAll; rw [ha, hcs]; rfl⟩

theorem plan_ok_elim {q0 q1 : List ℚ} {T dt : ℚ} {ps : List PMPPoint}
    (h : plan_pmp_minimum_jerk q0 q1 T dt = .ok ps) :
    q1.length = q0.length ∧ ∃ coeffs, quinticAll T (q0.zip q1) = .ok coeffs ∧
      ps = planSamples coeffs T dt (List.range ((sampleCount T dt).toNat + 1)) 0 := by
  unfold plan_pmp_minimum_jerk at h
  by_cases hlen : q1.length = q0.length
  · rw [if_neg (by simpa using hlen)] at h
    cases hq : quinticAll T (q0.zip q1) with
    | error e => rw [hq] at h; cases h
    | ok coeffs =>
        rw [hq] at h
        exact ⟨hlen, coeffs, rfl, (Except.ok.inj h).symm⟩
  · rw [if_pos (by simpa using hlen)] at h
    cases h

theorem length_planSamples (coeffs : List (List ℚ)) (T dt : ℚ) :
    ∀ (ks : List ℕ) (J : ℚ), (planSamples coeffs T dt ks J).length = ks.length
  | [], _ => rfl
  | k :: ks, J => by
      unfold planSamples
      simp [length_planSamples coeffs T dt ks]

theorem map_t_planSamples (coeffs : List (List ℚ)) (T dt : ℚ) :
    ∀ (ks : List ℕ) (J : ℚ),
      (planSamples coeffs T dt ks J).map PMPPoint.t =
        ks.map fun (k : ℕ) => if (k : ℚ) * dt > T then T else (k : ℚ) * dt
  | [], _ => rfl
  | k :: ks, J => by
      unfold planSamples
      simp only [List.map_cons]
      rw [map_t_planSamples coeffs T dt ks]
      rfl

theorem mem_planSamples (coeffs : List (List ℚ)) (T dt : ℚ) :
    ∀ (ks : List ℕ) (J : ℚ) (p : PMPPoint), p ∈ planSamples coeffs T dt ks J →
      ∃ t J', p = mkPoint coeffs t dt J'
  | [], _, p, h => absurd h (by simp [planSamples])
  | k :: ks, J, p, h => by
      unfold planSamples at h
      rcases List.mem_cons.mp h with rfl | h
      · exact ⟨_, J, rfl⟩
      · exact mem_planSamples coeffs T dt ks _ p h

theorem last_planSamples (coeffs : List (List ℚ)) (T dt : ℚ) :
    ∀ (ks : List ℕ) (J : ℚ) (d : PMPPoint), ks ≠ [] →
      ∃ J', (planSamples coeffs T dt ks J).getLastD d =
        mkPoint coeffs
          (if ((ks.getLastD 0 : ℕ) : ℚ) * dt > T then T else ((ks.getLastD 0 : ℕ) : ℚ) * dt)
          dt J'
  | [], _, _, hne => absurd rfl hne
  | [k], J, d, _ => ⟨J, by unfold planSamples; simp [planSamples]⟩
  | k :: k' :: ks, J, d, _ => by
      obtain ⟨J', hJ'⟩ := last_planSamples coeffs T dt (k' :: ks)
        (mkPoint coeffs (if (k : ℚ) * dt > T then T else (k : ℚ) * dt) dt J).J_acc
        (mkPoint coeffs (if (k : ℚ) * dt > T then T else (k : ℚ) * dt) dt J)
        (by simp)
      refine ⟨J', ?_⟩
      unfold planSamples
      rw [List.getLastD_cons]
      rw [show ((k :: k' :: ks).getLastD 0) = ((k' :: ks).getLastD 0) from List.getLastD_cons k 0 (k' :: ks) ▸ rfl]
      exact hJ'

theorem evalQ_zero {q0v q1v T : ℚ} {a : List ℚ}
    (h : quintic_coeffs q0v 0 0 q1v 0 0 T = .ok a) : evalQ 0 a = q0v := by
  obtain ⟨-, h0, -, -, -, -, -⟩ := quintic_ok_rows h
  unfold evalQ
  linear_combination h0

theorem evalDQ_zero {q0v q1v T : ℚ} {a : List ℚ}
    (h : quintic_coeffs q0v 0 0 q1v 0 0 T = .ok a) : evalDQ 0 a = 0 := by
  obtain ⟨-, -, h1, -, -, -, -⟩ := quintic_ok_rows h
  unfold evalDQ
  linear_combination h1

theorem evalDDQ_zero {q0v q1v T : ℚ} {a : List ℚ}
    (h : quintic_coeffs q0v 0 0 q1v 0 0 T = .ok a) : evalDDQ 0 a = 0 := by
  obtain ⟨-, -, -, h2, -, -, -⟩ := quintic_ok_rows h
  unfold evalDDQ
  linear_combination h2

theorem evalQ_final {q0v q1v T : ℚ} {a : List ℚ}
    (h : quintic_coeffs q0v 0 0 q1v 0 0 T = .ok a) : evalQ T a = q1v := by
  obtain ⟨-, -, -, -, h3, -, -⟩ := quintic_ok_rows h
  unfold evalQ
  linear_combination h3

theorem evalDQ_final {q0v q1v T : ℚ} {a : List ℚ}
    (h : quintic_coeffs q0v 0 0 q1v 0 0 T = .ok a) : evalDQ T a = 0 := by
  obtain ⟨-, -, -, -, -, h4, -⟩ := quintic_ok_rows h
  unfold evalDQ
  linear_combination h4

theorem evalDDQ_final {q0v q1v T : ℚ} {a : List ℚ}
    (h : quintic_coeffs q0v 0 0 q1v 0 0 T = .ok a) : evalDDQ T a = 0 := by
  obtain ⟨-, -, -, -, -, -, h5⟩ := quintic_ok_rows h
  unfold evalDDQ
  linear_combination h5

theorem zip_length_eq {q0 q1 : List ℚ} (hlen : q1.length = q0.length) :
    (q0.zip q1).length = q0.length := by
  simp [List.length_zip, hlen]

/-- C1 (amended): on a successful plan with positive T and dt, the first
sample carries exactly the start configuration with zero velocity and
acceleration; the last sample carries exactly the target configuration
with zero velocity and acceleration whenever N*dt does not undershoot T
(in particular whenever round(T/dt)*dt is at least T).  Without that
condition the final sample sits at time N*dt strictly before T, where
the position has not yet reached the target (see the counterexample). -/
theorem plan_endpoints (q0 q1 : List ℚ) (T dt : ℚ) (ps : List PMPPoint)
    (hT : 0 < T) (hdt : 0 < dt) (h : plan_pmp_minimum_jerk q0 q1 T dt = .ok ps) :
    ((ps.headD default).q = q0 ∧
     (ps.headD default).dq = List.replicate q0.length 0 ∧
     (ps.headD default).ddq = List.replicate q0.length 0) ∧
    (T ≤ ((sampleCount T dt).toNat : ℚ) * dt →
      (ps.getLastD default).q = q1 ∧
      (ps.getLastD default).dq = List.replicate q0.length 0 ∧
      (ps.getLastD default).ddq = List.replicate q0.length 0) := by
  obtain ⟨hlen, coeffs, hq, rfl⟩ := plan_ok_elim h
  have hq0len : q0.length ≤ q1.length := le_of_eq hlen.symm
  have hq1len : q1.length ≤ q0.length := le_of_eq hlen
  constructor
  · rw [List.range_succ_eq_map]
    unfold planSamples
    have ht0 : (if ((0 : ℕ) : ℚ) * dt > T then T else ((0 : ℕ) : ℚ) * dt) = 0 := by
      rw [if_neg (by push_cast; linarith)]
      push_cast
      ring
    simp only [List.headD_cons, ht0]
    refine ⟨?_, ?_, ?_⟩
    · show coeffs.map (evalQ 0) = q0
      rw [quinticAll_map (evalQ 0) Prod.fst (fun sg a ha => evalQ_zero ha) hq]
      exact List.map_fst_zip q0 q1 hq0len
    · show coeffs.map (evalDQ 0) = List.replicate q0.length 0
      rw [quinticAll_map (evalDQ 0) (fun _ => 0) (fun sg a ha => evalDQ_zero ha) hq]
      rw [show ((q0.zip q1).map fun _ => (0 : ℚ)) =
        List.replicate (q0.zip q1).length 0 from by simp [List.map_const']]
      rw [zip_length_eq hlen]
    · show coeffs.map (evalDDQ 0) = List.replicate q0.length 0
      rw [quinticAll_map (evalDDQ 0) (fun _ => 0) (fun sg a ha => evalDDQ_zero ha) hq]
      rw [show ((q0.zip q1).map fun _ => (0 : ℚ)) =
        List.replicate (q0.zip q1).length 0 from by simp [List.map_const']]
      rw [zip_length_eq hlen]
  · intro hTN
    obtain ⟨J', hJ'⟩ := last_planSamples coeffs T dt
      (List.range ((sampleCount T dt).toNat + 1)) 0 default (by simp)
    have hlast : (List.range ((sampleCount T dt).toNat + 1)).getLastD 0 =
        (sampleCount T dt).toNat := by
      rw [List.range_succ, List.getLastD_concat]
    rw [hlast] at hJ'
    have htN : (if (((sampleCount T dt).toNat : ℕ) : ℚ) * dt > T then T
        else (((sampleCount T dt).toNat : ℕ) : ℚ) * dt) = T := by
      by_cases hgt : (((sampleCount T dt).toNat : ℕ) : ℚ) * dt > T
      · rw [if_pos hgt]
      · rw [if_neg hgt]
        have := le_of_not_lt hgt
        linarith
    rw [htN] at hJ'
    rw [hJ']
    refine ⟨?_, ?_, ?_⟩
    · show coeffs.map (evalQ T) = q1
      rw [quinticAll_map (evalQ T) Prod.snd (fun sg a ha => evalQ_final ha) hq]
      exact List.map_snd_zip q0 q1 hq1len
    · show coeffs.map (evalDQ T) = List.replicate q0.length 0
      rw [quinticAll_map (evalDQ T) (fun _ => 0) (fun sg a ha => evalDQ_final ha) hq]
      rw [show ((q0.zip q1).map fun _ => (0 : ℚ)) =
        List.replicate (q0.zip q1).length 0 from by simp [List.map_const']]
      rw [zip_length_eq hlen]
    · show coeffs.map (evalDDQ T) = List.replicate q0.length 0
      rw [quinticAll_map (evalDDQ T) (fun _ => 0) (fun sg a ha => evalDDQ_final ha) hq]
      rw [show ((q0.zip q1).map fun _ => (0 : ℚ)) =
        List.replicate (q0.zip q1).length 0 from by simp [List.map_const']]
      rw [zip_length_eq hlen]

theorem roundHalfAway_nonneg {x : ℚ} (hx : 0 ≤ x) : roundHalfAway x = round x := by
  unfold roundHalfAway
  rw [if_neg (not_lt.mpr hx), round_eq]

theorem tval_eq_min {T dt : ℚ} (k : ℚ) : (if k * dt > T then T else k * dt) = min (k * dt) T := by
  rcases le_or_lt (k * dt) T with hle | hlt
  · rw [if_neg (not_lt.mpr hle), min_eq_left hle]
  · rw [if_pos hlt, min_eq_right (le_of_lt hlt)]

theorem chain'_le_map_range (g : ℕ → ℚ) (hmono : ∀ m, g m ≤ g (m + 1)) (n : ℕ) :
    List.Chain' (· ≤ ·) ((List.range n).map g) := by
  rw [List.chain'_map]
  cases n with
  | zero => simp
  | succ n =>
      rw [List.chain'_range_succ]
      intro m hm
      exact hmono m

/-- C2 (amended): on a successful plan with positive T and dt the sample
times start at exactly 0 and are non-decreasing, and the last sample time
is min(N*dt, T): it equals T exactly when N*dt does not undershoot T,
and stays at N*dt < T otherwise (see the counterexample). -/
theorem plan_times (q0 q1 : List ℚ) (T dt : ℚ) (ps : List PMPPoint)
    (hT : 0 < T) (hdt : 0 < dt) (h : plan_pmp_minimum_jerk q0 q1 T dt = .ok ps) :
    (ps.headD default).t = 0 ∧
    List.Chain' (· ≤ ·) (ps.map PMPPoint.t) ∧
    (ps.getLastD default).t = min (((sampleCount T dt).toNat : ℚ) * dt) T ∧
    (T ≤ ((sampleCount T dt).toNat : ℚ) * dt → (ps.getLastD default).t = T) := by
  obtain ⟨hlen, coeffs, hq, rfl⟩ := plan_ok_elim h
  refine ⟨?_, ?_, ?_, ?_⟩
  · rw [List.range_succ_eq_map]
    unfold planSamples
    show (if ((0 : ℕ) : ℚ) * dt > T then T else ((0 : ℕ) : ℚ) * dt) = 0
    rw [if_neg (by push_cast; linarith)]
    push_cast
    ring
  · rw [map_t_planSamples]
    apply chain'_le_map_range
    intro m
    rw [tval_eq_min ((m : ℕ) : ℚ), tval_eq_min (((m + 1) : ℕ) : ℚ)]
    apply min_le_min_right
    apply mul_le_mul_of_nonneg_right _ (le_of_lt hdt)
    push_cast
    linarith
  · obtain ⟨J', hJ'⟩ := last_planSamples coeffs T dt
      (List.range ((sampleCount T dt).toNat + 1)) 0 default (by simp)
    have hlast : (List.range ((sampleCount T dt).toNat + 1)).getLastD 0 =
        (sampleCount T dt).toNat := by
      rw [List.range_succ, List.getLastD_concat]
    rw [hlast] at hJ'
    rw [hJ']
    show (if (((sampleCount T dt).toNat : ℕ) : ℚ) * dt > T then T
        else (((sampleCount T dt).toNat : ℕ) : ℚ) * dt) =
      min (((sampleCount T dt).toNat : ℚ) * dt) T
    exact tval_eq_min _
  · intro hTN
    obtain ⟨J', hJ'⟩ := last_planSamples coeffs T dt
      (List.range ((sampleCount T dt).toNat + 1)) 0 default (by simp)
    have hlast : (List.range ((sampleCount T dt).toNat + 1)).getLastD 0 =
        (sampleCount T dt).toNat := by
      rw [List.range_succ, List.getLastD_concat]
    rw [hlast] at hJ'
    rw [hJ']
    show (if (((sampleCount T dt).toNat : ℕ) : ℚ) * dt > T then T
        else (((sampleCount T dt).toNat : ℕ) : ℚ) * dt) = T
    by_cases hgt : (((sampleCount T dt).toNat : ℕ) : ℚ) * dt > T
    · rw [if_pos hgt]
    · rw [if_neg hgt]
      have := le_of_not_lt hgt
      linarith

theorem normSq_nonneg (l : List ℚ) : 0 ≤ normSq l := by
  unfold normSq
  apply List.sum_nonneg
  intro x hx
  obtain ⟨v, -, rfl⟩ := List.mem_map.mp hx
  exact mul_self_nonneg v

theorem chain_J_planSamples (coeffs : List (List ℚ)) (T dt : ℚ) :
    ∀ (ks : List ℕ) (J : ℚ),
      List.Chain' (fun p p' => p'.J_acc = p.J_acc + 1 / 2 * normSq p'.u * dt)
        (planSamples coeffs T dt ks J)
  | [], _ => List.chain'_nil
  | [k], J => List.chain'_singleton _
  | k :: k' :: ks, J => by
      rw [show planSamples coeffs T dt (k :: k' :: ks) J =
        mkPoint coeffs (if (k : ℚ) * dt > T then T else (k : ℚ) * dt) dt J ::
          planSamples coeffs T dt (k' :: ks)
            (mkPoint coeffs (if (k : ℚ) * dt > T then T else (k : ℚ) * dt) dt J).J_acc from rfl]
      rw [List.chain'_cons']
      constructor
      · intro p hp
        rw [show planSamples coeffs T dt (k' :: ks)
            (mkPoint coeffs (if (k : ℚ) * dt > T then T else (k : ℚ) * dt) dt J).J_acc =
          mkPoint coeffs (if (k' : ℚ) * dt > T then T else (k' : ℚ) * dt) dt
            (mkPoint coeffs (if (k : ℚ) * dt > T then T else (k : ℚ) * dt) dt J).J_acc ::
            planSamples coeffs T dt ks
              (mkPoint coeffs (if (k' : ℚ) * dt > T then T else (k' : ℚ) * dt) dt
                (mkPoint coeffs (if (k : ℚ) * dt > T then T else (k : ℚ) * dt) dt J).J_acc).J_acc
          from rfl] at hp
        rw [List.head?_cons] at hp
        cases hp
        rfl
      · exact chain_J_planSamples coeffs T dt (k' :: ks) _

/-- C3 (amended): on a successful plan with positive dt the accumulated
cost of the first sample is (1/2)*||u||^2*dt — the sampling loop adds the
k = 0 rectangle as well, so the first sample carries one rectangle of
cost rather than 0 — the stated recurrence holds between every pair of
consecutive samples, and the accumulated cost is non-decreasing. -/
theorem plan_cost (q0 q1 : List ℚ) (T dt : ℚ) (ps : List PMPPoint)
    (hdt : 0 < dt) (h : plan_pmp_minimum_jerk q0 q1 T dt = .ok ps) :
    (ps.headD default).J_acc = 1 / 2 * normSq (ps.headD default).u * dt ∧
    List.Chain' (fun p p' => p'.J_acc = p.J_acc + 1 / 2 * normSq p'.u * dt) ps ∧
    List.Chain' (fun p p' => p.J_acc ≤ p'.J_acc) ps := by
  obtain ⟨hlen, coeffs, hq, rfl⟩ := plan_ok_elim h
  refine ⟨?_, ?_, ?_⟩
  · rw [List.range_succ_eq_map]
    unfold planSamples
    rw [List.headD_cons]
    show (mkPoint coeffs _ dt 0).J_acc = _
    unfold mkPoint
    simp only []
    show 0 + 1 / 2 * normSq (coeffs.map (evalU _)) * dt = _
    rw [zero_add]
  · exact chain_J_planSamples coeffs T dt _ 0
  · apply List.Chain'.imp _ (chain_J_planSamples coeffs T dt _ 0)
    intro p p' hr
    rw [hr]
    have h1 : 0 ≤ normSq p'.u := normSq_nonneg p'.u
    nlinarith

theorem sampleCount_eq_round {T dt : ℚ} (hT : 0 < T) (hdt : 0 < dt) :
    sampleCount T dt = max 2 (round (T / max dt durEps)) := by
  unfold sampleCount
  rw [roundHalfAway_nonneg]
  apply div_nonneg (le_of_lt hT)
  have : (0 : ℚ) < max dt durEps := lt_max_of_lt_left hdt
  linarith

/-- C7: on a successful plan with positive T and dt the number of
returned samples is max(2, round(T / max(dt, 1e-9))) + 1, stated with the
mathematical rounding function (for nonnegative arguments std::round and
mathematical rounding agree); the Scenario A instance T = 1, dt = 1/50
giving 51 samples is checked in the witness. -/
theorem plan_sample_count (q0 q1 : List ℚ) (T dt : ℚ) (ps : List PMPPoint)
    (hT : 0 < T) (hdt : 0 < dt) (h : plan_pmp_minimum_jerk q0 q1 T dt = .ok ps) :
    ps.length = (max 2 (round (T / max dt durEps))).toNat + 1 := by
  obtain ⟨-, coeffs, -, rfl⟩ := plan_ok_elim h
  rw [length_planSamples, List.length_range, sampleCount_eq_round hT hdt]

theorem getD_map {α β : Type*} (f : α → β) (l : List α) (i : ℕ) (d : α) (d' : β)
    (hi : i < l.length) : (l.map f).getD i d' = f (l.getD i d) := by
  rw [List.getD_eq_getElem _ _ (by simpa using hi), List.getElem_map,
    List.getD_eq_getElem _ _ hi]

theorem getD_zip {q0 q1 : List ℚ} (i : ℕ) (hi : i < q0.length) (hlen : q1.length = q0.length) :
    (q0.zip q1).getD i (0, 0) = (q0.getD i 0, q1.getD i 0) := by
  rw [List.getD_eq_getElem _ _ (by rw [zip_length_eq hlen]; omega), List.getElem_zip,
    List.getD_eq_getElem _ _ hi, List.getD_eq_getElem _ _ (by omega)]

theorem jerk_polys_of_len6 {a : List ℚ} (h : a.length = 6) (t : ℚ) :
    polyEval (derivC (derivC (derivC a))) t = evalU t a ∧
    polyEval (derivC (derivC (derivC (derivC a)))) t = evalDU t a ∧
    polyEval (derivC (derivC (derivC (derivC (derivC a))))) t = evalD2U t a := by
  rcases a with - | ⟨x0, - | ⟨x1, - | ⟨x2, - | ⟨x3, - | ⟨x4, - | ⟨x5, - | ⟨x6, rest⟩⟩⟩⟩⟩⟩⟩ <;>
    simp only [List.length_cons, List.length_nil] at h
  · omega
  · omega
  · omega
  · omega
  · omega
  · omega
  · refine ⟨?_, ?_, ?_⟩ <;>
      (norm_num [polyEval, derivC, mapIdxFrom, evalU, evalDU, evalD2U, List.getD]; try ring)
  · omega

/-- C4: at every sample of a successful plan and for every joint, the
stored costates satisfy lambda3 = -u exactly; moreover the per-joint
quintic coefficients a exist with u equal to the third formal derivative
of the quintic (the jerk polynomial) evaluated at the sample time,
lambda2 equal to the first derivative of that jerk polynomial, and
lambda1 equal to its negated second derivative. -/
theorem plan_costates (q0 q1 : List ℚ) (T dt : ℚ) (ps : List PMPPoint)
    (h : plan_pmp_minimum_jerk q0 q1 T dt = .ok ps) :
    ∀ p ∈ ps, ∀ i, i < q0.length →
      p.lambda3.getD i 0 = -(p.u.getD i 0) ∧
      ∃ a, quintic_coeffs (q0.getD i 0) 0 0 (q1.getD i 0) 0 0 T = .ok a ∧
        p.u.getD i 0 = polyEval (derivC (derivC (derivC a))) p.t ∧
        p.lambda2.getD i 0 = polyEval (derivC (derivC (derivC (derivC a)))) p.t ∧
        p.lambda1.getD i 0 = -(polyEval (derivC (derivC (derivC (derivC (derivC a))))) p.t) := by
  obtain ⟨hlen, coeffs, hq, rfl⟩ := plan_ok_elim h
  intro p hp i hi
  obtain ⟨t, J', rfl⟩ := mem_planSamples coeffs T dt _ _ p hp
  have hclen : coeffs.length = q0.length := by
    rw [quinticAll_ok_length hq, zip_length_eq hlen]
  have hic : i < coeffs.length := by omega
  have hnth := quinticAll_ok_nth hq i (by rw [zip_length_eq hlen]; omega)
  rw [getD_zip i hi hlen] at hnth
  have halen : (coeffs.getD i []).length = 6 := (quintic_ok_rows hnth).1
  obtain ⟨hj3, hj4, hj5⟩ := jerk_polys_of_len6 halen t
  have hu : (mkPoint coeffs t dt J').u.getD i 0 = evalU t (coeffs.getD i []) := by
    show (coeffs.map (evalU t)).getD i 0 = _
    rw [getD_map (evalU t) coeffs i [] 0 hic]
  have hpt : (mkPoint coeffs t dt J').t = t := rfl
  refine ⟨?_, coeffs.getD i [], hnth, ?_, ?_, ?_⟩
  · show ((coeffs.map (evalU t)).map fun v => -v).getD i 0 = -((coeffs.map (evalU t)).getD i 0)
    rw [getD_map (fun v => -v) (coeffs.map (evalU t)) i 0 0 (by rw [List.length_map]; omega)]
  · rw [hu, hpt]
    show evalU t (coeffs.getD i []) = polyEval (derivC (derivC (derivC (coeffs.getD i [])))) _
    rw [hj3]
  · show (coeffs.map (evalDU t)).getD i 0 = _
    rw [getD_map (evalDU t) coeffs i [] 0 hic, hpt]
    rw [hj4]
  · show (coeffs.map fun a => -(evalD2U t a)).getD i 0 = _
    rw [getD_map (fun a => -(evalD2U t a)) coeffs i [] 0 hic, hpt]
    rw [hj5]

theorem getD_range {n i : ℕ} (hi : i < n) : (List.range n).getD i 0 = i := by
  rw [List.getD_eq_getElem _ _ (by simpa using hi)]
  simp

theorem clampQ_mem {v lo hi : ℚ} (h : lo ≤ hi) : lo ≤ clampQ v lo hi ∧ clampQ v lo hi ≤ hi := by
  unfold clampQ
  split_ifs <;> constructor <;> linarith

theorem clampQ_high {v lo hi : ℚ} (h : lo ≤ hi) (hv : hi < v) : clampQ v lo hi = hi := by
  unfold clampQ
  rw [if_neg (by linarith), if_pos hv]

/-- C8: setState raises the dimension-mismatch failure (embedded from the
assert guard of the C++ code, which stops the call before any state
change) exactly when the position or velocity vector length differs from
the configured DOF, leaving no successor state; with matching lengths it
always succeeds, whatever the numeric values are. -/
theorem setState_spec (s : DynState) (q dq : List ℚ) :
    (¬(q.length = s.dof ∧ dq.length = s.dof) →
      setState s q dq = .error .dimensionMismatch) ∧
    ((q.length = s.dof ∧ dq.length = s.dof) → ∃ s', setState s q dq = .ok s') := by
  constructor
  · intro h
    unfold setState
    rw [if_neg h]
  · intro h
    unfold setState
    rw [if_pos h]
    exact ⟨_, rfl⟩

theorem reachable_dof_limits {s : DynState} (h : Reachable s) :
    s.qmin = List.replicate s.dof (-qLimC) ∧
    s.qmax = List.replicate s.dof qLimC ∧
    s.dqmax = List.replicate s.dof 4 := by
  induction h with
  | init dof => exact ⟨rfl, rfl, rfl⟩
  | set q dq hreach hset ih =>
      rename_i s s'
      unfold setState at hset
      by_cases hl : q.length = s.dof ∧ dq.length = s.dof
      · rw [if_pos hl] at hset
        have hs' := (Except.ok.inj hset)
        subst hs'
        exact ih
      · rw [if_neg hl] at hset
        cases hset
  | torque tau hreach hset ih =>
      rename_i s s'
      unfold setTorque at hset
      by_cases hl : tau.length = s.dof
      · rw [if_pos hl] at hset
        have hs' := (Except.ok.inj hset)
        subst hs'
        exact ih
      · rw [if_neg hl] at hset
        cases hset
  | stepped dt hreach ih => exact ih

theorem qLimC_pos : (0 : ℚ) < qLimC := by norm_num [qLimC]

theorem clampState_bounds {s : DynState} (hlim : s.qmin = List.replicate s.dof (-qLimC) ∧
    s.qmax = List.replicate s.dof qLimC ∧ s.dqmax = List.replicate s.dof 4) :
    ∀ i, i < s.dof →
      -qLimC ≤ (clampState s).q.getD i 0 ∧ (clampState s).q.getD i 0 ≤ qLimC ∧
      -4 ≤ (clampState s).dq.getD i 0 ∧ (clampState s).dq.getD i 0 ≤ 4 := by
  intro i hi
  obtain ⟨hqmin, hqmax, hdqmax⟩ := hlim
  have hminv : s.qmin.getD i 0 = -qLimC := by
    rw [hqmin, List.getD_eq_getElem _ _ (by simpa using hi)]
    simp
  have hmaxv : s.qmax.getD i 0 = qLimC := by
    rw [hqmax, List.getD_eq_getElem _ _ (by simpa using hi)]
    simp
  have hdqv : s.dqmax.getD i 0 = 4 := by
    rw [hdqmax, List.getD_eq_getElem _ _ (by simpa using hi)]
    simp
  have hq : (clampState s).q.getD i 0 =
      clampQ (s.q.getD i 0) (s.qmin.getD i 0) (s.qmax.getD i 0) := by
    show ((List.range s.dof).map _).getD i 0 = _
    rw [getD_map _ _ i 0 0 (by simpa using hi), getD_range hi]
  have hdq : (clampState s).dq.getD i 0 =
      clampQ (s.dq.getD i 0) (-(s.dqmax.getD i 0)) (s.dqmax.getD i 0) := by
    show ((List.range s.dof).map _).getD i 0 = _
    rw [getD_map _ _ i 0 0 (by simpa using hi), getD_range hi]
  rw [hq, hdq, hminv, hmaxv, hdqv]
  have h1 := clampQ_mem (v := s.q.getD i 0) (by linarith [qLimC_pos] : -qLimC ≤ qLimC)
  have h2 := clampQ_mem (v := s.dq.getD i 0) (by norm_num : (-4 : ℚ) ≤ 4)
  exact ⟨h1.1, h1.2, h2.1, h2.2⟩

/-- C9: every state reachable through construction, setState, setTorque
and step keeps its limit vectors equal to the construction constants
(they are never modified), keeps every position within [-3.14159,
3.14159] and every velocity within [-4, 4]; and a successful setState
whose requested velocity component exceeds 4 stores exactly 4 for that
component. -/
theorem dynamics_invariant :
    (∀ s, Reachable s →
      (s.qmin = List.replicate s.dof (-qLimC) ∧
       s.qmax = List.replicate s.dof qLimC ∧
       s.dqmax = List.replicate s.dof 4) ∧
      ∀ i, i < s.dof →
        -qLimC ≤ s.q.getD i 0 ∧ s.q.getD i 0 ≤ qLimC ∧
        -4 ≤ s.dq.getD i 0 ∧ s.dq.getD i 0 ≤ 4) ∧
    (∀ s q dq s', Reachable s → setState s q dq = .ok s' →
      ∀ i, i < s.dof → 4 < dq.getD i 0 → s'.dq.getD i 0 = 4) := by
  have hmain : ∀ s, Reachable s →
      (s.qmin = List.replicate s.dof (-qLimC) ∧
       s.qmax = List.replicate s.dof qLimC ∧
       s.dqmax = List.replicate s.dof 4) ∧
      ∀ i, i < s.dof →
        -qLimC ≤ s.q.getD i 0 ∧ s.q.getD i 0 ≤ qLimC ∧
        -4 ≤ s.dq.getD i 0 ∧ s.dq.getD i 0 ≤ 4 := by
    intro s h
    refine ⟨reachable_dof_limits h, ?_⟩
    induction h with
    | init dof =>
        intro i hi
        have hz : ∀ (v : ℚ), (List.replicate dof v).getD i 0 = v := fun v => by
          rw [List.getD_eq_getElem _ _ (by simpa using hi)]
          simp
        show -qLimC ≤ (List.replicate dof 0).getD i 0 ∧ _
        rw [hz 0]
        have := qLimC_pos
        show _ ∧ (List.replicate dof (0:ℚ)).getD i 0 ≤ qLimC ∧
          -4 ≤ (List.replicate dof (0:ℚ)).getD i 0 ∧ (List.replicate dof (0:ℚ)).getD i 0 ≤ 4
        rw [hz 0]
        norm_num
        linarith
    | set q dq hreach hset ih =>
        rename_i sprev scur
        unfold setState at hset
        by_cases hl : q.length = sprev.dof ∧ dq.length = sprev.dof
        · rw [if_pos hl] at hset
          have hs' := (Except.ok.inj hset)
          subst hs'
          have hlim := reachable_dof_limits hreach
          exact clampState_bounds (s := { sprev with q := q, dq := dq })
            ⟨hlim.1, hlim.2.1, hlim.2.2⟩
        · rw [if_neg hl] at hset
          cases hset
    | torque tau hreach hset ih =>
        rename_i sprev scur
        unfold setTorque at hset
        by_cases hl : tau.length = sprev.dof
        · rw [if_pos hl] at hset
          have hs' := (Except.ok.inj hset)
          subst hs'
          exact ih
        · rw [if_neg hl] at hset
          cases hset
    | stepped dt hreach ih =>
        rename_i sprev
        have hlim := reachable_dof_limits hreach
        intro i hi
        have hdqv : sprev.dqmax.getD i 0 = 4 := by
          rw [hlim.2.2, List.getD_eq_getElem _ _ (by simpa using hi)]
          simp
        have hminv : sprev.qmin.getD i 0 = -qLimC := by
          rw [hlim.1, List.getD_eq_getElem _ _ (by simpa using hi)]
          simp
        have hmaxv : sprev.qmax.getD i 0 = qLimC := by
          rw [hlim.2.1, List.getD_eq_getElem _ _ (by simpa using hi)]
          simp
        have hi' : i < sprev.dof := hi
        have hdq : (dynStep sprev dt).dq.getD i 0 =
            clampQ (sprev.dq.getD i 0 + dt * sprev.tau.getD i 0)
              (-(sprev.dqmax.getD i 0)) (sprev.dqmax.getD i 0) := by
          show ((List.range sprev.dof).map _).getD i 0 = _
          rw [getD_map _ _ i 0 0 (by simpa using hi'), getD_range hi']
        have hq : (dynStep sprev dt).q.getD i 0 =
            clampQ (sprev.q.getD i 0 + dt * (dynStep sprev dt).dq.getD i 0)
              (sprev.qmin.getD i 0) (sprev.qmax.getD i 0) := by
          show ((List.range sprev.dof).map _).getD i 0 = _
          rw [getD_map _ _ i 0 0 (by simpa using hi'), getD_range hi']
          rfl
        rw [hq, hdq, hminv, hmaxv, hdqv]
        have h1 := clampQ_mem
          (v := sprev.q.getD i 0 +
            dt * clampQ (sprev.dq.getD i 0 + dt * sprev.tau.getD i 0) (-(4 : ℚ)) 4)
          (by linarith [qLimC_pos] : -qLimC ≤ qLimC)
        have h2 := clampQ_mem (v := sprev.dq.getD i 0 + dt * sprev.tau.getD i 0)
          (by norm_num : (-4 : ℚ) ≤ 4)
        exact ⟨h1.1, h1.2, h2.1, h2.2⟩
  refine ⟨hmain, ?_⟩
  intro s q dq s' hreach hset i hi hbig
  unfold setState at hset
  by_cases hl : q.length = s.dof ∧ dq.length = s.dof
  · rw [if_pos hl] at hset
    have hs' := (Except.ok.inj hset)
    subst hs'
    have hlim := reachable_dof_limits hreach
    have hdqv : s.dqmax.getD i 0 = 4 := by
      rw [hlim.2.2, List.getD_eq_getElem _ _ (by simpa using hi)]
      simp
    show ((List.range s.dof).map _).getD i 0 = 4
    rw [getD_map _ _ i 0 0 (by simpa using hi), getD_range hi]
    show clampQ (dq.getD i 0) (-(s.dqmax.getD i 0)) (s.dqmax.getD i 0) = 4
    rw [hdqv]
    exact clampQ_high (by norm_num) hbig
  · rw [if_neg hl] at hset
    cases hset

theorem solve6_error_cases {A : List (List ℚ)} {b : List ℚ} {e : PlanError}
    (h : solve6 A b = .error e) : e = .dimension ∨ e = .singular := by
  unfold solve6 at h
  by_cases hd : A.length = 6 ∧ b.length = 6 ∧ ∀ row ∈ A, row.length = 6
  · rw [if_pos hd] at h
    cases hfin : elimUpTo (augmentRows A b) 6 with
    | ok fin => rw [hfin] at h; cases h
    | error e' =>
        rw [hfin] at h
        have heq : e' = e := Except.error.inj h
        obtain ⟨k, -, rs, -, hstep⟩ := elimUpTo_error _ 6 e' hfin
        exact Or.inr (heq ▸ (elimStep_error hstep).1)
  · rw [if_neg hd] at h
    exact Or.inl (Except.error.inj h).symm

theorem quintic_error_cases {q0v v0 a0 q1v v1 a1 T : ℚ} {e : PlanError}
    (h : quintic_coeffs q0v v0 a0 q1v v1 a1 T = .error e) :
    e = .durationTooSmall ∨ e = .dimension ∨ e = .singular := by
  unfold quintic_coeffs at h
  by_cases hT : T ≤ durEps
  · rw [if_pos hT] at h
    exact Or.inl (Except.error.inj h).symm
  · rw [if_neg hT] at h
    exact Or.inr (solve6_error_cases h)

/-- C6 (amended): quintic_coeffs raises DurationTooSmallError exactly
when T ≤ 1e-9 — the guard runs before any solving work, and no other
part of the solver produces that error kind — and consequently
plan_pmp_minimum_jerk with T = 1e-12 raises DurationTooSmallError for
every pair of equal-length configurations with at least one joint.  With
zero joints the coefficient loop never runs, so no error is raised (see
the counterexample). -/
theorem quintic_duration_guard :
    (∀ q0v v0 a0 q1v v1 a1 T : ℚ,
      quintic_coeffs q0v v0 a0 q1v v1 a1 T = .error .durationTooSmall ↔ T ≤ durEps) ∧
    (∀ (q0 q1 : List ℚ) (dt : ℚ), q1.length = q0.length → 0 < q0.length →
      plan_pmp_minimum_jerk q0 q1 (1 / 1000000000000) dt = .error .durationTooSmall) := by
  have hiff : ∀ q0v v0 a0 q1v v1 a1 T : ℚ,
      quintic_coeffs q0v v0 a0 q1v v1 a1 T = .error .durationTooSmall ↔ T ≤ durEps := by
    intro q0v v0 a0 q1v v1 a1 T
    constructor
    · intro h
      by_contra hT
      unfold quintic_coeffs at h
      rw [if_neg hT] at h
      rcases solve6_error_cases h with hc | hc <;> cases hc
    · intro hT
      unfold quintic_coeffs
      rw [if_pos hT]
  refine ⟨hiff, ?_⟩
  intro q0 q1 dt hlen hpos
  cases q0 with
  | nil => simp at hpos
  | cons x q0' =>
      cases q1 with
      | nil => simp at hlen
      | cons y q1' =>
          unfold plan_pmp_minimum_jerk
          rw [if_neg (by simpa using hlen)]
          have hq : quintic_coeffs x 0 0 y 0 0 (1 / 1000000000000) =
              .error .durationTooSmall :=
            (hiff x 0 0 y 0 0 _).mpr (by norm_num [durEps])
          show (quinticAll _ (((x, y) :: (q0'.zip q1') : List (ℚ × ℚ)))).map _ =
            .error .durationTooSmall
          unfold quinticAll
          rw [hq]
          rfl

theorem quintic_error_ne_size {q0v v0 a0 q1v v1 a1 T : ℚ} {e : PlanError}
    (h : quintic_coeffs q0v v0 a0 q1v v1 a1 T = .error e) : e ≠ .sizeMismatch := by
  rcases quintic_error_cases h with hc | hc | hc <;> (subst hc; intro hcontra; cases hcontra)

/-- C10: the planner takes its DOF from the length of q_start.  The
size-mismatch error occurs exactly when the two configuration lengths
differ; when they agree and the per-joint quintic fit succeeds for each
joint (the fit can only fail through the duration or pivot guards,
which do not depend on the number of joints — with zero joints the
condition is vacuous), the call succeeds; and every sample of any
successful call carries position, velocity, acceleration, jerk and
costate vectors of exactly the common length, whatever that length is. -/
theorem plan_dof_from_start (q0 q1 : List ℚ) (T dt : ℚ) :
    ((plan_pmp_minimum_jerk q0 q1 T dt = .error .sizeMismatch) ↔ q1.length ≠ q0.length) ∧
    (q1.length = q0.length →
      (∀ i, i < q0.length →
        ∃ a, quintic_coeffs (q0.getD i 0) 0 0 (q1.getD i 0) 0 0 T = .ok a) →
      (plan_pmp_minimum_jerk q0 q1 T dt).isOk = true) ∧
    (∀ ps, plan_pmp_minimum_jerk q0 q1 T dt = .ok ps → ∀ p ∈ ps,
      p.q.length = q0.length ∧ p.dq.length = q0.length ∧ p.ddq.length = q0.length ∧
      p.u.length = q0.length ∧ p.lambda1.length = q0.length ∧
      p.lambda2.length = q0.length ∧ p.lambda3.length = q0.length) := by
  refine ⟨⟨?_, ?_⟩, ?_, ?_⟩
  · intro h
    unfold plan_pmp_minimum_jerk at h
    by_cases hlen : q1.length = q0.length
    · rw [if_neg (by simpa using hlen)] at h
      exfalso
      cases hq : quinticAll T (q0.zip q1) with
      | ok coeffs => rw [hq] at h; cases h
      | error e =>
          rw [hq] at h
          have heq : e = .sizeMismatch := Except.error.inj h
          obtain ⟨sg, -, hsg⟩ := quinticAll_error hq
          exact quintic_error_ne_size hsg heq
    · exact hlen
  · intro hne
    unfold plan_pmp_minimum_jerk
    rw [if_pos (by simpa using hne)]
  · intro hlen hall
    unfold plan_pmp_minimum_jerk
    rw [if_neg (by simpa using hlen)]
    have htotal : ∀ sg ∈ q0.zip q1, ∃ a, quintic_coeffs sg.1 0 0 sg.2 0 0 T = .ok a := by
      intro sg hsg
      obtain ⟨i, hi, rfl⟩ := List.getElem_of_mem hsg
      have hi0 : i < q0.length := by
        rw [zip_length_eq hlen] at hi
        omega
      have hsgvals : (q0.zip q1)[i] = (q0.getD i 0, q1.getD i 0) := by
        rw [← List.getD_eq_getElem (q0.zip q1) (0, 0) hi]
        exact getD_zip i hi0 hlen
      rw [hsgvals]
      exact hall i hi0
    obtain ⟨cs, hcs⟩ := quinticAll_total htotal
    rw [hcs]
    rfl
  · intro ps hok p hp
    obtain ⟨hlen, coeffs, hq, rfl⟩ := plan_ok_elim hok
    obtain ⟨t, J', rfl⟩ := mem_planSamples coeffs T dt _ _ p hp
    have hclen : coeffs.length = q0.length := by
      rw [quinticAll_ok_length hq, zip_length_eq hlen]
    refine ⟨?_, ?_, ?_, ?_, ?_, ?_, ?_⟩ <;>
      simp [mkPoint, hclen]

theorem plan01_eval (dt : ℚ) :
    plan_pmp_minimum_jerk [0] [1] 1 dt =
      .ok (planSamples [[0, 0, 0, 10, -15, 6]] 1 dt
        (List.range ((sampleCount 1 dt).toNat + 1)) 0) := by
  unfold plan_pmp_minimum_jerk
  rw [if_neg (by norm_num)]
  show (quinticAll 1 [((0 : ℚ), (1 : ℚ))]).map _ = _
  unfold quinticAll
  rw [quintic_T1_01]
  rfl

theorem sampleCount_1_3tenth : sampleCount 1 (3 / 10) = 3 := by
  norm_num [sampleCount, roundHalfAway, durEps]

theorem sampleCount_1_half : sampleCount 1 (1 / 2) = 2 := by
  norm_num [sampleCount, roundHalfAway, durEps]

/-- C1 counterexample: with T = 1 and dt = 3/10 the plan succeeds with
N = round(10/3) = 3 samples after the first, the last sample sits at
time 0.9, and its position is 0.99144, not the target 1. -/
theorem plan_endpoints_counterexample :
    (((plan_pmp_minimum_jerk [0] [1] 1 (3 / 10)).toOption.getD []).getLastD default).q ≠
      [1] := by
  rw [plan01_eval (3 / 10), sampleCount_1_3tenth]
  rw [show List.range ((3 : ℤ).toNat + 1) = [0, 1, 2, 3] from rfl]
  norm_num [planSamples, mkPoint, evalQ, evalDQ, evalDDQ, evalU, evalDU, evalD2U, normSq,
    List.getD, Except.toOption, List.getLastD]

/-- C1 witness for the amended endpoint theorem at T = 1, dt = 1/2. -/
theorem plan_endpoints_witness :
    (((plan_pmp_minimum_jerk [0] [1] 1 (1 / 2)).toOption.getD []).headD default).q = [0] ∧
    (((plan_pmp_minimum_jerk [0] [1] 1 (1 / 2)).toOption.getD []).getLastD default).q = [1] := by
  have hok : plan_pmp_minimum_jerk [0] [1] 1 (1 / 2) =
      .ok ((plan_pmp_minimum_jerk [0] [1] 1 (1 / 2)).toOption.getD []) := by
    rw [plan01_eval (1 / 2)]
    rfl
  have h := plan_endpoints [0] [1] 1 (1 / 2) _ (by norm_num) (by norm_num) hok
  refine ⟨h.1.1, ?_⟩
  exact (h.2 (by rw [sampleCount_1_half, show Int.toNat 2 = 2 from rfl]; norm_num)).1

/-- C2 counterexample: with T = 1 and dt = 3/10 the last sample time is
0.9, not the requested duration 1. -/
theorem plan_times_counterexample :
    (((plan_pmp_minimum_jerk [0] [1] 1 (3 / 10)).toOption.getD []).getLastD default).t ≠
      1 := by
  rw [plan01_eval (3 / 10), sampleCount_1_3tenth]
  rw [show List.range ((3 : ℤ).toNat + 1) = [0, 1, 2, 3] from rfl]
  norm_num [planSamples, mkPoint, evalQ, evalDQ, evalDDQ, evalU, evalDU, evalD2U, normSq,
    List.getD, Except.toOption, List.getLastD]

/-- C2 witness for the amended time theorem at T = 1, dt = 1/2. -/
theorem plan_times_witness :
    (((plan_pmp_minimum_jerk [0] [1] 1 (1 / 2)).toOption.getD []).headD default).t = 0 ∧
    (((plan_pmp_minimum_jerk [0] [1] 1 (1 / 2)).toOption.getD []).getLastD default).t = 1 := by
  have hok : plan_pmp_minimum_jerk [0] [1] 1 (1 / 2) =
      .ok ((plan_pmp_minimum_jerk [0] [1] 1 (1 / 2)).toOption.getD []) := by
    rw [plan01_eval (1 / 2)]
    rfl
  have h := plan_times [0] [1] 1 (1 / 2) _ (by norm_num) (by norm_num) hok
  exact ⟨h.1, h.2.2.2 (by rw [sampleCount_1_half, show Int.toNat 2 = 2 from rfl]; norm_num)⟩

/-- C3 counterexample: with T = 1 and dt = 1/2 the first sample already
carries J_acc = 900 = (1/2)*60^2*(1/2), not 0. -/
theorem plan_cost_counterexample :
    (((plan_pmp_minimum_jerk [0] [1] 1 (1 / 2)).toOption.getD []).headD default).J_acc ≠
      0 := by
  rw [plan01_eval (1 / 2), sampleCount_1_half]
  rw [show List.range ((2 : ℤ).toNat + 1) = [0, 1, 2] from rfl]
  norm_num [planSamples, mkPoint, evalQ, evalDQ, evalDDQ, evalU, evalDU, evalD2U, normSq,
    List.getD, Except.toOption]

/-- C3 witness for the amended cost theorem at T = 1, dt = 1/2. -/
theorem plan_cost_witness :
    (((plan_pmp_minimum_jerk [0] [1] 1 (1 / 2)).toOption.getD []).headD default).J_acc =
      1 / 2 *
        normSq (((plan_pmp_minimum_jerk [0] [1] 1 (1 / 2)).toOption.getD []).headD default).u *
        (1 / 2) := by
  have hok : plan_pmp_minimum_jerk [0] [1] 1 (1 / 2) =
      .ok ((plan_pmp_minimum_jerk [0] [1] 1 (1 / 2)).toOption.getD []) := by
    rw [plan01_eval (1 / 2)]
    rfl
  exact (plan_cost [0] [1] 1 (1 / 2) _ (by norm_num) hok).1

/-- C4 witness: the costate identity at the first sample of a concrete
plan. -/
theorem plan_costates_witness :
    (((plan_pmp_minimum_jerk [0] [1] 1 (1 / 2)).toOption.getD []).headD default).lambda3.getD
        0 0 =
      -((((plan_pmp_minimum_jerk [0] [1] 1 (1 / 2)).toOption.getD []).headD
          default).u.getD 0 0) := by
  have hok : plan_pmp_minimum_jerk [0] [1] 1 (1 / 2) =
      .ok ((plan_pmp_minimum_jerk [0] [1] 1 (1 / 2)).toOption.getD []) := by
    rw [plan01_eval (1 / 2)]
    rfl
  have hne : ((plan_pmp_minimum_jerk [0] [1] 1 (1 / 2)).toOption.getD []) ≠ [] := by
    rw [plan01_eval (1 / 2), sampleCount_1_half]
    rw [show List.range ((2 : ℤ).toNat + 1) = [0, 1, 2] from rfl]
    simp [planSamples, Except.toOption]
  have hmem : ((plan_pmp_minimum_jerk [0] [1] 1 (1 / 2)).toOption.getD []).headD default ∈
      ((plan_pmp_minimum_jerk [0] [1] 1 (1 / 2)).toOption.getD []) := by
    cases hL : ((plan_pmp_minimum_jerk [0] [1] 1 (1 / 2)).toOption.getD []) with
    | nil => exact absurd hL hne
    | cons p rest => exact List.mem_cons_self p rest
  exact (plan_costates [0] [1] 1 (1 / 2) _ hok _ hmem 0 (by norm_num)).1

/-- C5 witness: the quintic constraint system at T = 1 with boundary
positions 0 and 1 is solved exactly by the returned coefficients. -/
theorem solve6_spec_witness :
    Matrix.mulVec (toMat (quinticMat 1)) (toVec6 [0, 0, 0, 10, -15, 6]) =
      toVec6 (quinticRhs 0 0 0 1 0 0) := by
  have hs : solve6 (quinticMat 1) (quinticRhs 0 0 0 1 0 0) = .ok [0, 0, 0, 10, -15, 6] := by
    have h := quintic_T1_01
    unfold quintic_coeffs at h
    rw [if_neg (by norm_num [durEps])] at h
    exact h
  refine (solve6_spec (quinticMat 1) (quinticRhs 0 0 0 1 0 0) rfl rfl ?_).1 _ hs
  intro row hrow
  simp only [quinticMat, List.mem_cons, List.not_mem_nil, or_false] at hrow
  rcases hrow with rfl | rfl | rfl | rfl | rfl | rfl <;> rfl

/-- C6 counterexample: with zero joints no quintic is ever built, so the
T = 1e-12 call does not raise DurationTooSmallError (it succeeds). -/
theorem quintic_duration_guard_counterexample :
    plan_pmp_minimum_jerk [] [] (1 / 1000000000000) (1 / 50) ≠
      .error .durationTooSmall := by
  unfold plan_pmp_minimum_jerk
  rw [if_neg (by norm_num)]
  intro hcontra
  rw [show quinticAll (1 / 1000000000000) (List.zip [] []) = .ok ([] : List (List ℚ))
    from rfl] at hcontra
  simp [Except.map] at hcontra

/-- C6 witness: with at least one joint, T = 1e-12 raises
DurationTooSmallError. -/
theorem quintic_duration_guard_witness :
    plan_pmp_minimum_jerk [0] [0] (1 / 1000000000000) (1 / 50) =
      .error .durationTooSmall :=
  quintic_duration_guard.2 [0] [0] (1 / 50) rfl (by norm_num)

/-- C7 witness: Scenario A of the spec, T = 1 and dt = 1/50, yields
exactly 51 samples. -/
theorem plan_sample_count_witness :
    ((plan_pmp_minimum_jerk [0] [1] 1 (1 / 50)).toOption.getD []).length = 51 := by
  have hok : plan_pmp_minimum_jerk [0] [1] 1 (1 / 50) =
      .ok ((plan_pmp_minimum_jerk [0] [1] 1 (1 / 50)).toOption.getD []) := by
    rw [plan01_eval (1 / 50)]
    rfl
  have h := plan_sample_count [0] [1] 1 (1 / 50) _ (by norm_num) (by norm_num) hok
  rw [h]
  rw [show (1 : ℚ) / max (1 / 50) durEps = 50 from by norm_num [durEps], round_eq]
  norm_num
  rfl

/-- C8 witness: a position vector of the wrong length is rejected with
the dimension-mismatch failure. -/
theorem setState_spec_witness :
    setState (mkSimpleDynamics 2) [1] [0, 0] = .error .dimensionMismatch :=
  (setState_spec (mkSimpleDynamics 2) [1] [0, 0]).1 (by norm_num [mkSimpleDynamics])

/-- C9 witness: Scenario D, a requested velocity 5 above the limit 4 is
stored as exactly 4. -/
theorem dynamics_invariant_witness :
    ((setState (mkSimpleDynamics 1) [0] [5]).toOption.getD
      (mkSimpleDynamics 1)).dq.getD 0 0 = 4 := by
  have hset : setState (mkSimpleDynamics 1) [0] [5] =
      .ok ((setState (mkSimpleDynamics 1) [0] [5]).toOption.getD (mkSimpleDynamics 1)) := by
    unfold setState
    rw [if_pos (by constructor <;> rfl)]
    rfl
  exact dynamics_invariant.2 (mkSimpleDynamics 1) [0] [5] _ (Reachable.init 1) hset 0
    (by norm_num [mkSimpleDynamics]) (by norm_num [List.getD])

/-- C10 witness: a 2-DOF pair of configurations (a length other than the
6 DOF of the service arm) plans successfully. -/
theorem plan_dof_from_start_witness :
    (plan_pmp_minimum_jerk [0, 0] [1, 1] 1 (1 / 2)).isOk = true := by
  apply (plan_dof_from_start [0, 0] [1, 1] 1 (1 / 2)).2.1 rfl
  intro i hi
  have hi2 : i < 2 := by simpa using hi
  interval_cases i
  · exact ⟨[0, 0, 0, 10, -15, 6], quintic_T1_01⟩
  · exact ⟨[0, 0, 0, 10, -15, 6], quintic_T1_01⟩
